import Mathlib

/-!
Verification of the scan-plan-execute pipeline of the metadata-renamer
repository (src/main.py, src/app/extract_date.py).

The Python source is shallowly embedded: pure fragments become Lean
functions, filesystem state is an explicit list of directory entries, the
Tk treeview / logging side effects are dropped (only the data they carry —
entries, statuses, progress fractions — is modelled), and the metadata
libraries (exifread / hachoir) are abstracted by the data they hand back
(an association list of EXIF tags, resp. an optional extracted timestamp).

Conventions:
* Python `datetime` is modelled by the `DateTime` structure below with the
  constructor invariants of `datetime.datetime` captured in `DateTime.valid`
  (year 1..9999, month 1..12, day bounded by the real calendar, second ≤ 59,
  microsecond ≤ 999999).  Note that `datetime` carries sub-second precision
  (`microsecond`) while the target name format `%Y-%m-%d_%H-%M-%S` does not.
* `str(int)` / f-string interpolation of a count is `Nat.repr`.
* The two-digit `strftime` fields (`%m`/`%d`/`%H`/`%M`/`%S`) are
  zero-padded; `%Y` follows the platform `strftime` CPython delegates to,
  which on Linux emits the year *unpadded* — four digits exactly for the
  years 1000–9999 and fewer digits below 1000.
* Strings are Lean `String`s; Python string comparison and Lean's `≤` are
  both pointwise comparison of code points.
-/

namespace MetadataRenamer

/-! ### Decimal representation of naturals

`Nat.repr` (used implicitly by the f-string `f"{formatted}_{count}{suffix}"`
in `App._create_renamed_filename`) is defined in core via the fuelled
`Nat.toDigitsCore`.  For reasoning we introduce a structurally recursive
twin `decRepr` and later prove `Nat.repr n = (decRepr n).asString`. -/

/-- Most-significant-first decimal digits of `n` (as characters). -/
def decRepr (n : Nat) : List Char :=
  if _h : n < 10 then [Nat.digitChar n]
  else decRepr (n / 10) ++ [Nat.digitChar (n % 10)]
decreasing_by exact Nat.div_lt_self (by omega) (by omega)

/-- Value of a most-significant-first digit string (inverse of `decRepr`). -/
def decVal (l : List Char) : Nat :=
  l.foldl (fun a c => 10 * a + (c.toNat - 48)) 0

/-! ### The datetime data model -/

/-- Model of a Python `datetime.datetime` value (timezone-naive).  The
`microsecond` field is part of the value (and hence of equality — the key
type of `App._date_counter`) but is dropped by the `%Y-%m-%d_%H-%M-%S`
formatting. -/
structure DateTime where
  year : Nat
  month : Nat
  day : Nat
  hour : Nat
  minute : Nat
  second : Nat
  microsecond : Nat
deriving DecidableEq

/-- Gregorian leap-year rule (as in Python's `calendar.isleap`). -/
def isLeapYear (y : Nat) : Bool :=
  y % 4 == 0 && (y % 100 != 0 || y % 400 == 0)

/-- Number of days of month `m` of year `y` (the bound enforced by the
`datetime` constructor). -/
def daysInMonth (y m : Nat) : Nat :=
  if m == 2 then (if isLeapYear y then 29 else 28)
  else if m == 4 || m == 6 || m == 9 || m == 11 then 30
  else 31

/-- The range invariants the `datetime.datetime` constructor enforces; every
value extracted by the Python code satisfies them. -/
def DateTime.valid (d : DateTime) : Bool :=
  1 ≤ d.year && d.year ≤ 9999 &&
  1 ≤ d.month && d.month ≤ 12 &&
  1 ≤ d.day && d.day ≤ daysInMonth d.year d.month &&
  d.hour ≤ 23 && d.minute ≤ 59 && d.second ≤ 59 &&
  d.microsecond ≤ 999999

/-! ### strftime with `TARGET_DATE_FORMAT = "%Y-%m-%d_%H-%M-%S"` -/

/-- Left-pad a string with `'0'` to width `w` (the zero padding of the
numeric `strftime` fields). -/
def zfill (w : Nat) (s : String) : String :=
  ⟨List.replicate (w - s.length) '0' ++ s.data⟩

/-- `timestamp.strftime(TARGET_DATE_FORMAT)` of `src/main.py` line 286:
format `"%Y-%m-%d_%H-%M-%S"`.  The `microsecond` field does not occur in
the format and is discarded.  CPython delegates to the platform
`strftime`; on Linux `%Y` is *not* zero-padded, so the year renders as its
plain decimal (`999-…` for year 999, four digits only from year 1000 on),
while the remaining fields are zero-padded to two digits. -/
def strftimeTarget (t : DateTime) : String :=
  Nat.repr t.year ++ "-" ++ zfill 2 (Nat.repr t.month) ++ "-" ++
  zfill 2 (Nat.repr t.day) ++ "_" ++ zfill 2 (Nat.repr t.hour) ++ "-" ++
  zfill 2 (Nat.repr t.minute) ++ "-" ++ zfill 2 (Nat.repr t.second)

/-- The f-string of `src/main.py` line 292 building a candidate filename
from the formatted timestamp, the disambiguating count and the original
extension. -/
def mkName (formatted : String) (count : Nat) (ext : String) : String :=
  formatted ++ "_" ++ Nat.repr count ++ ext

/-! ### `RENAMED_REGEX` (src/main.py lines 57-59)

The pattern is `^\d{4}-\d{2}-\d{2}_\d{2}-\d{2}-\d{2}(_\d+)?(\.\w+)?$` with
`re.IGNORECASE`.  We implement it as a deterministic matcher; for this
pattern greedy matching without backtracking is equivalent to the regex
semantics, because every alternative of a group differs from the others
only in how many digits it consumes while everything that can follow a
group (`-`, `_`, `.`, end of string) rejects a digit.  `\d` and `\w` are
modelled on ASCII; Python's Unicode-aware classes accept more names, but
every name where they differ is rejected by the extension allow-lists
(which are ASCII) before any behavioural difference can surface. -/

/-- The character class `\w` (ASCII part). -/
def isWordChar (c : Char) : Bool :=
  c.isAlphanum || c == '_'

/-- Consume exactly `n` decimal digits. -/
def dropDigits : Nat → List Char → Option (List Char)
  | 0, l => some l
  | _ + 1, [] => none
  | n + 1, c :: l => if c.isDigit then dropDigits n l else none

/-- Consume one expected literal character. -/
def dropChar (c : Char) : List Char → Option (List Char)
  | [] => none
  | x :: l => if x = c then some l else none

/-- The optional trailing `(\.\w+)?$` of `RENAMED_REGEX`. -/
def matchExt : List Char → Bool
  | [] => true
  | c :: rest => if c = '.' then !rest.isEmpty && rest.all isWordChar else false

/-- The optional `(_\d+)?` of `RENAMED_REGEX` followed by `(\.\w+)?$`. -/
def matchTail (l : List Char) : Bool :=
  match l with
  | [] => true
  | c :: rest =>
    if c = '_' then
      let ds := rest.takeWhile Char.isDigit
      if ds.isEmpty then false else matchExt (rest.dropWhile Char.isDigit)
    else matchExt l

/-- `RENAMED_REGEX.match(name)` of `src/main.py` line 312 (as a Bool):
`^\d{4}-\d{2}-\d{2}_\d{2}-\d{2}-\d{2}(_\d+)?(\.\w+)?$`. -/
def renamedMatch (s : String) : Bool :=
  match (do
    let l ← dropDigits 4 s.data
    let l ← dropChar '-' l
    let l ← dropDigits 2 l
    let l ← dropChar '-' l
    let l ← dropDigits 2 l
    let l ← dropChar '_' l
    let l ← dropDigits 2 l
    let l ← dropChar '-' l
    let l ← dropDigits 2 l
    let l ← dropChar '-' l
    let l ← dropDigits 2 l
    pure l : Option (List Char)) with
  | some l => matchTail l
  | none => false

/-! ### Extension allow-lists and EXIF tag priority list (src/main.py) -/

/-- `IMAGE_FILE_EXTENSIONS` of `src/main.py` lines 21-39. -/
def IMAGE_FILE_EXTENSIONS : List String :=
  [".tiff", ".tif", ".jpg", ".jpeg", ".jpe", ".jif", ".jfif", ".jfi",
   ".png", ".webp", ".heif", ".heifs", ".heic", ".heics", ".avci",
   ".avcs", ".hif"]

/-- `VIDEO_FILE_EXTENSIONS` of `src/main.py` lines 40-49. -/
def VIDEO_FILE_EXTENSIONS : List String :=
  [".avi", ".mp4", ".mov", ".mkv", ".flv", ".wmv", ".mpeg", ".webm"]

/-- `EXIF_DATE_TAGS` of `src/main.py` lines 51-54: the prioritized list of
capture-date tag names. -/
def EXIF_DATE_TAGS : List String :=
  ["EXIF DateTimeOriginal", "Image DateTime"]

/-! ### `pathlib.Path.suffix` -/

/-- Index of the last `'.'` of a character list, if any. -/
def lastDotPos : List Char → Option Nat
  | [] => none
  | c :: l =>
    match lastDotPos l with
    | some i => some (i + 1)
    | none => if c = '.' then some 0 else none

/-- `pathlib`'s `PurePath.suffix` restricted to a bare file name: the part
from the last dot on, provided that dot is neither the first nor the last
character; otherwise the empty string. -/
def pySuffix (name : String) : String :=
  match lastDotPos name.data with
  | some i => if 0 < i ∧ i < name.data.length - 1 then ⟨name.data.drop i⟩ else ""
  | none => ""

/-- The upper-to-lower case table of ASCII. -/
def upperLowerTable : List (Char × Char) :=
  [('A', 'a'), ('B', 'b'), ('C', 'c'), ('D', 'd'), ('E', 'e'), ('F', 'f'),
   ('G', 'g'), ('H', 'h'), ('I', 'i'), ('J', 'j'), ('K', 'k'), ('L', 'l'),
   ('M', 'm'), ('N', 'n'), ('O', 'o'), ('P', 'p'), ('Q', 'q'), ('R', 'r'),
   ('S', 's'), ('T', 't'), ('U', 'u'), ('V', 'v'), ('W', 'w'), ('X', 'x'),
   ('Y', 'y'), ('Z', 'z')]

/-- The ASCII case of Python's `str.lower` on one character.  (`str.lower`
also maps a handful of non-ASCII characters towards ASCII, but none of
those can turn a name into an entry of the ASCII extension allow-lists the
result is compared against, other than through exotic single-character
expansions such as the Kelvin sign.) -/
def lowerChar (c : Char) : Char :=
  ((upperLowerTable.find? (fun p => p.1 == c)).map (fun p => p.2)).getD c

/-- Python's `str.lower` (`suffix.lower()` at `src/main.py` line 316). -/
def pyLower (s : String) : String :=
  ⟨s.data.map lowerChar⟩

/-- Character-list form of a zero-padded numeric `strftime` field;
`padDigits_zfill_repr` below identifies it with `(zfill w (Nat.repr n)).data`. -/
def padDigits (w n : Nat) : List Char :=
  List.replicate (w - (decRepr n).length) '0' ++ decRepr n

/-- Shape of an extension a planned file can carry: empty, or a dot
followed by at least one `\w` character (no further dot — `pySuffix` cuts
at the last dot). -/
def extOk (ext : String) : Bool :=
  match ext.data with
  | [] => true
  | c :: t => c = '.' && !t.isEmpty && t.all isWordChar

/-! ### `datetime.strptime(value, "%Y:%m:%d %H:%M:%S")`

CPython's `_strptime` compiles this format to the regular expression
`(?P<Y>\d\d\d\d):(?P<m>1[0-2]|0[1-9]|[1-9]):(?P<d>3[01]|[12]\d|0[1-9]|[1-9])\s+(?P<H>2[0-3]|[0-1]\d|\d):(?P<M>[0-5]\d|\d):(?P<S>6[0-1]|[0-5]\d|\d)`,
requires the whole input to be consumed, converts the matched digit groups
with `int`, and hands them to the `datetime` constructor, which raises
`ValueError` (here: `none`) when a field is out of range (notably
second = 60/61, a day beyond the month's length, or year 0000).  Each
two-digit-or-one-digit group is matched deterministically longest-first;
this is equivalent to the regex's ordered alternation with backtracking
because whatever follows a group (`:`, whitespace, end of input) rejects a
digit, so a successful two-digit match can never have to be revisited. -/

/-- Numeric value of a decimal digit character. -/
def digitVal (c : Char) : Nat := c.toNat - 48

/-- Match one `strptime` numeric group: a two-digit match whose value
satisfies `ok2` is preferred, else a one-digit match whose value satisfies
`ok1`. -/
def matchNum2or1 (ok2 ok1 : Nat → Bool) : List Char → Option (Nat × List Char)
  | c1 :: c2 :: rest =>
    if c1.isDigit && c2.isDigit && ok2 (10 * digitVal c1 + digitVal c2) then
      some (10 * digitVal c1 + digitVal c2, rest)
    else if c1.isDigit && ok1 (digitVal c1) then some (digitVal c1, c2 :: rest)
    else none
  | [c1] => if c1.isDigit && ok1 (digitVal c1) then some (digitVal c1, []) else none
  | [] => none

/-- Match exactly four decimal digits (the `%Y` group). -/
def matchYear4 : List Char → Option (Nat × List Char)
  | c1 :: c2 :: c3 :: c4 :: rest =>
    if c1.isDigit && c2.isDigit && c3.isDigit && c4.isDigit then
      some (1000 * digitVal c1 + 100 * digitVal c2 + 10 * digitVal c3 + digitVal c4, rest)
    else none
  | _ => none

/-- Match `\s+` (one or more whitespace characters, greedily). -/
def matchWs1 : List Char → Option (List Char)
  | c :: rest => if c.isWhitespace then some (rest.dropWhile Char.isWhitespace) else none
  | [] => none

/-- `datetime.strptime(value, "%Y:%m:%d %H:%M:%S")`, returning `none` where
Python raises `ValueError` (no regex match, unconverted trailing data, or a
field rejected by the `datetime` constructor). -/
def strptimeColonFormat (value : String) : Option DateTime := do
  let (y, l) ← matchYear4 value.data
  let l ← dropChar ':' l
  let (mo, l) ← matchNum2or1 (fun v => 1 ≤ v && v ≤ 12) (fun v => 1 ≤ v && v ≤ 9) l
  let l ← dropChar ':' l
  let (d, l) ← matchNum2or1 (fun v => 1 ≤ v && v ≤ 31) (fun v => 1 ≤ v && v ≤ 9) l
  let l ← matchWs1 l
  let (h, l) ← matchNum2or1 (fun v => v ≤ 23) (fun _ => true) l
  let l ← dropChar ':' l
  let (mi, l) ← matchNum2or1 (fun v => v ≤ 59) (fun _ => true) l
  let l ← dropChar ':' l
  let (s, l) ← matchNum2or1 (fun v => v ≤ 61) (fun _ => true) l
  if !l.isEmpty then none
  else
    let dt : DateTime := ⟨y, mo, d, h, mi, s, 0⟩
    if dt.valid then some dt else none

/-! ### `extract_date_from_image` (src/main.py lines 83-101)

`exifread.process_file` is abstracted by the tag dictionary it returns,
modelled as an association list from tag names to the tag's textual value
(`tag.values`).  An unreadable file (the `except` branch around the file
open) corresponds to an empty tag list here and equally yields `None`.
The `for` loop returns at the *first* present tag of `EXIF_DATE_TAGS`; a
present tag whose value fails `strptime` raises `ValueError`, which the
enclosing `except Exception` turns into `None` (logged at error severity —
logging is not modelled). -/

/-- `tags.get(key)` on the EXIF tag dictionary. -/
def lookupTag (tags : List (String × String)) (key : String) : Option String :=
  (tags.find? (fun p => p.1 == key)).map (·.2)

/-- The `for expected_tag in EXIF_DATE_TAGS` loop: value of the first
present tag, if any. -/
def firstPresentTag (tags : List (String × String)) : List String → Option String
  | [] => none
  | k :: ks =>
    match lookupTag tags k with
    | some v => some v
    | none => firstPresentTag tags ks

/-- `extract_date_from_image` of `src/main.py`, as a function of the EXIF
tag dictionary of the file. -/
def extract_date_from_image (tags : List (String × String)) : Option DateTime :=
  match firstPresentTag tags EXIF_DATE_TAGS with
  | some v => strptimeColonFormat v
  | none => none

/-! ### Statuses, entries, jobs (src/main.py lines 62-81) -/

/-- `Status` of `src/main.py`. -/
inductive Status where
  | ready
  | no_change
  | no_date_found
  | conflict
  | renamed
  | error
deriving DecidableEq

/-- `FileEntry` of `src/main.py` (one treeview row). -/
structure FileEntry where
  original_name : String
  proposed_name : String
  status : Status
deriving DecidableEq

/-- `RenameJob` of `src/main.py`.  The Tk `item_id` (an opaque treeview row
handle, used only to address the row being updated) is omitted; a job is
identified by its names. -/
structure RenameJob where
  original_name : String
  proposed_name : String
deriving DecidableEq

/-- One directory entry as the scan sees it: its name, whether it is a
regular file (`path.is_file()`), and the capture timestamp its *content*
metadata yields (`extract_date_from_image` / `extract_date_from_video`
abstracted to their result; `none` covers a missing tag, an unreadable or
unparseable file, and a malformed timestamp value alike).  Renaming a file
changes `name` only. -/
structure DirFile where
  name : String
  isFile : Bool
  meta : Option DateTime
deriving DecidableEq

/-- The mutable state `App` threads through one scan: `_date_counter`
(keyed by the **`datetime` value**, `src/main.py` line 145/289), the
treeview rows, and `_pending_renames`. -/
structure ScanState where
  dateCounter : DateTime → Nat
  entries : List FileEntry
  pendingRenames : List RenameJob

/-! ### `App._create_renamed_filename` (src/main.py lines 285-298) -/

/-- The body of the `while 1` loop: starting from `count`, try
`f"{formatted}_{count}{suffix}"`, advancing `count` while the candidate
exists on disk.  The Python loop carries no fuel; it can only fail to
terminate if every candidate exists, impossible on a finite disk, and
`findFreeCount_not_mem` below shows the fuel `disk.length + 1` used by
`_create_renamed_filename` always suffices. -/
def findFreeCountAux (disk : List String) (formatted ext : String) :
    Nat → Nat → Nat
  | 0, count => count
  | fuel + 1, count =>
    if mkName formatted count ext ∈ disk then
      findFreeCountAux disk formatted ext fuel (count + 1)
    else count

/-- `App._create_renamed_filename`: the chosen new name together with the
updated `_date_counter` (each loop iteration increments
`self._date_counter[timestamp]`, so the final counter value is the chosen
count plus one; keys other than `timestamp` are untouched). -/
def _create_renamed_filename (disk : List String) (counter : DateTime → Nat)
    (fileName : String) (timestamp : DateTime) : String × (DateTime → Nat) :=
  let formatted := strftimeTarget timestamp
  let ext := pySuffix fileName
  let count := findFreeCountAux disk formatted ext (disk.length + 1) (counter timestamp)
  (mkName formatted count ext, fun d => if d = timestamp then count + 1 else counter d)

/-! ### `App._scan_directory` (src/main.py lines 300-343) -/

/-- A directory entry survives the three skip checks of the scan loop
(lines 308, 312, 317-323): it is a regular file, its name does not already
match `RENAMED_REGEX`, and its lowercased extension is on one of the two
allow-lists. -/
def processable (f : DirFile) : Bool :=
  f.isFile && !renamedMatch f.name &&
    (pyLower (pySuffix f.name) ∈ IMAGE_FILE_EXTENSIONS ||
     pyLower (pySuffix f.name) ∈ VIDEO_FILE_EXTENSIONS)

/-- The tail of the loop body once a date was extracted (lines 331-340):
build the new name, classify `Ready`/`NoChange`, insert the row, and
enqueue a rename job iff the name changes. -/
def scanDated (disk : List String) (st : ScanState) (f : DirFile)
    (date : DateTime) : ScanState :=
  let r := _create_renamed_filename disk st.dateCounter f.name date
  let status := if r.1 ≠ f.name then Status.ready else Status.no_change
  { dateCounter := r.2,
    entries := st.entries ++ [⟨f.name, r.1, status⟩],
    pendingRenames :=
      if r.1 ≠ f.name then st.pendingRenames ++ [⟨f.name, r.1⟩]
      else st.pendingRenames }

/-- One iteration of the `for path in sorted(directory.iterdir())` loop. -/
def scanStep (disk : List String) (st : ScanState) (f : DirFile) : ScanState :=
  if !f.isFile then st
  else if renamedMatch f.name then st
  else
    let sfx := pyLower (pySuffix f.name)
    if sfx ∈ IMAGE_FILE_EXTENSIONS then
      match f.meta with
      | none => { st with entries := st.entries ++ [⟨f.name, "", Status.no_date_found⟩] }
      | some date => scanDated disk st f date
    else if sfx ∈ VIDEO_FILE_EXTENSIONS then
      match f.meta with
      | none => { st with entries := st.entries ++ [⟨f.name, "", Status.no_date_found⟩] }
      | some date => scanDated disk st f date
    else st

/-- `App._scan_directory` on a directory listing.  The prior treeview
contents, pending renames and date counter are cleared (lines 302-305);
existence checks during planning consult the unmodified on-disk listing
(no rename has happened yet).  `sorted(directory.iterdir())` on a single
directory orders entries by name via pointwise code-point comparison,
which is exactly `String`'s `≤`. -/
def _scan_directory (dir : List DirFile) : ScanState :=
  let disk := dir.map (·.name)
  ((dir.mergeSort (fun a b => a.name ≤ b.name)).foldl (scanStep disk)
    ⟨fun _ => 0, [], []⟩)

/-! ### `App._start_renaming` (src/main.py lines 345-399) -/

/-- `_rename_job` (lines 357-376) acting on the directory state: re-check
destination existence at execution time (`Conflict`, filesystem
untouched), otherwise attempt the OS rename — `osFail src dst = true`
models `src.rename(dst)` raising an `OSError` (permissions, file vanished,
...), caught as status `Error` with the filesystem untouched; otherwise
the file is renamed and the status is `Renamed`. -/
def renameJobStep (osFail : String → String → Bool) (dir : List DirFile)
    (job : RenameJob) : Status × List DirFile :=
  if job.proposed_name ∈ dir.map (·.name) then (Status.conflict, dir)
  else if osFail job.original_name job.proposed_name then (Status.error, dir)
  else
    (Status.renamed,
     dir.map fun f =>
       if f.name = job.original_name then { f with name := job.proposed_name } else f)

/-- The executed batch: every submitted job runs (a failed job only
records its status; it never aborts the batch), yielding the final
directory state and the per-job outcome stream.  The worker pool runs
jobs concurrently; they are modelled here in submission order. -/
def _start_renaming (osFail : String → String → Bool) (dir : List DirFile)
    (jobs : List RenameJob) : List DirFile × List (RenameJob × Status) :=
  jobs.foldl
    (fun acc job =>
      let r := renameJobStep osFail acc.1 job
      (r.2, acc.2 ++ [(job, r.1)]))
    (dir, [])

/-- The effect of a rename batch in which every job succeeded: each job
moves its source file to its destination name. -/
def applyRename (dir : List DirFile) (job : RenameJob) : List DirFile :=
  dir.map fun f =>
    if f.name = job.original_name then { f with name := job.proposed_name } else f

/-- The sequence of progress-bar fractions `_update_results` (lines
382-397) emits: `index / total` after the `index`-th completed future
(every future yields a result, because `_rename_job` catches all
exceptions), then exactly `1` once the loop is done.  Python computes the
quotient in floating point; it is modelled as the rational it
approximates. -/
def _update_results (total : Nat) : List ℚ :=
  ((List.range total).map fun i => ((i + 1 : Nat) : ℚ) / (total : ℚ)) ++ [1]

/-! ### Plain-language spec mirror for the tag-priority claim -/

/-- The tag-priority contract as the spec words it: try
`"EXIF DateTimeOriginal"` first, fall back to `"Image DateTime"` only when
the first tag is absent, parse the selected value with the fixed format,
and yield `none` when neither tag is present. -/
def specTagPriorityExtract (tags : List (String × String)) : Option DateTime :=
  match lookupTag tags "EXIF DateTimeOriginal" with
  | some v => strptimeColonFormat v
  | none =>
    match lookupTag tags "Image DateTime" with
    | some v => strptimeColonFormat v
    | none => none

/-! ## Lemmas: decimal representation -/

theorem decRepr_eq_of_lt (n : Nat) (h : n < 10) : decRepr n = [Nat.digitChar n] := by
  rw [decRepr]
  simp [h]

theorem decRepr_eq_of_ge (n : Nat) (h : ¬ n < 10) :
    decRepr n = decRepr (n / 10) ++ [Nat.digitChar (n % 10)] := by
  rw [decRepr]
  simp [h]

theorem digitChar_isDigit : ∀ m, m < 10 → (Nat.digitChar m).isDigit = true := by decide

theorem decRepr_all_digit (n : Nat) : ∀ c ∈ decRepr n, c.isDigit = true := by
  induction n using decRepr.induct with
  | case1 n h =>
    rw [decRepr_eq_of_lt n h]
    intro c hc
    simp only [List.mem_singleton] at hc
    subst hc
    exact digitChar_isDigit n h
  | case2 n h ih =>
    rw [decRepr_eq_of_ge n h]
    intro c hc
    rcases List.mem_append.1 hc with h1 | h1
    · exact ih c h1
    · simp only [List.mem_singleton] at h1
      subst h1
      exact digitChar_isDigit _ (Nat.mod_lt _ (by omega))

theorem decRepr_ne_nil (n : Nat) : decRepr n ≠ [] := by
  by_cases h : n < 10
  · rw [decRepr_eq_of_lt n h]; simp
  · rw [decRepr_eq_of_ge n h]; simp

theorem digitChar_toNat : ∀ m, m < 10 → (Nat.digitChar m).toNat - 48 = m := by decide

theorem decVal_append_singleton (l : List Char) (c : Char) :
    decVal (l ++ [c]) = 10 * decVal l + (c.toNat - 48) := by
  simp [decVal, List.foldl_append]

theorem decVal_decRepr (n : Nat) : decVal (decRepr n) = n := by
  induction n using decRepr.induct with
  | case1 n h =>
    rw [decRepr_eq_of_lt n h]
    simpa [decVal] using digitChar_toNat n h
  | case2 n h ih =>
    rw [decRepr_eq_of_ge n h, decVal_append_singleton, ih,
      digitChar_toNat _ (Nat.mod_lt _ (by omega))]
    omega

theorem decRepr_injective : Function.Injective decRepr := by
  intro a b h
  have := congrArg decVal h
  rwa [decVal_decRepr, decVal_decRepr] at this

theorem toDigitsCore_eq_decRepr (fuel n : Nat) (acc : List Char)
    (hf : n < 10 ^ fuel) (hp : 0 < fuel) :
    Nat.toDigitsCore 10 fuel n acc = decRepr n ++ acc := by
  induction fuel generalizing n acc with
  | zero => omega
  | succ f ih =>
    rw [Nat.toDigitsCore]
    by_cases h0 : n / 10 = 0
    · have hn : n < 10 := by omega
      simp only [h0, if_true]
      rw [decRepr_eq_of_lt n hn, Nat.mod_eq_of_lt hn]
      simp
    · have hn : ¬ n < 10 := by omega
      simp only [h0, if_false]
      have hf' : n / 10 < 10 ^ f := by
        rw [Nat.div_lt_iff_lt_mul (by omega)]
        calc n < 10 ^ (f + 1) := hf
        _ = 10 ^ f * 10 := by ring
      have hp' : 0 < f := by
        by_contra hc
        have : f = 0 := by omega
        subst this
        omega
      rw [ih _ _ hf' hp', decRepr_eq_of_ge n hn]
      simp

theorem repr_eq_decRepr (n : Nat) : Nat.repr n = ⟨decRepr n⟩ := by
  have hlt : n < 10 ^ (n + 1) := by
    calc n < 2 ^ n := Nat.lt_two_pow n
    _ ≤ 10 ^ n := Nat.pow_le_pow_left (by omega) n
    _ ≤ 10 ^ (n + 1) := Nat.pow_le_pow_right (by omega) (by omega)
  rw [Nat.repr, Nat.toDigits, toDigitsCore_eq_decRepr _ _ _ hlt (by omega)]
  simp [List.asString]

theorem repr_data (n : Nat) : (Nat.repr n).data = decRepr n := by
  rw [repr_eq_decRepr]

theorem repr_injective : Function.Injective Nat.repr := by
  intro a b h
  apply decRepr_injective
  have := congrArg String.data h
  rwa [repr_data, repr_data] at this

theorem decRepr_length_le (n k : Nat) (hk : 0 < k) (h : n < 10 ^ k) :
    (decRepr n).length ≤ k := by
  induction k generalizing n with
  | zero => omega
  | succ f ih =>
    by_cases h10 : n < 10
    · rw [decRepr_eq_of_lt n h10]; simp
    · rw [decRepr_eq_of_ge n h10]
      have hp' : 0 < f := by
        by_contra hc
        have : f = 0 := by omega
        subst this
        omega
      have hf' : n / 10 < 10 ^ f := by
        rw [Nat.div_lt_iff_lt_mul (by omega)]
        calc n < 10 ^ (f + 1) := h
        _ = 10 ^ f * 10 := by ring
      have := ih (n / 10) hp' hf'
      simp only [List.length_append, List.length_singleton]
      omega

theorem decRepr_length_lower (k : Nat) : ∀ n, 10 ^ k ≤ n → k + 1 ≤ (decRepr n).length := by
  induction k with
  | zero =>
    intro n _
    cases hd : decRepr n with
    | nil => exact absurd hd (decRepr_ne_nil n)
    | cons c t => simp
  | succ f ih =>
    intro n h
    have h10 : ¬ n < 10 := by
      have : (10 : Nat) ≤ 10 ^ (f + 1) := by
        calc (10 : Nat) = 10 ^ 1 := by ring
        _ ≤ 10 ^ (f + 1) := Nat.pow_le_pow_right (by omega) (by omega)
      omega
    rw [decRepr_eq_of_ge n h10]
    have hdiv : 10 ^ f ≤ n / 10 := by
      rw [Nat.le_div_iff_mul_le (by omega)]
      calc 10 ^ f * 10 = 10 ^ (f + 1) := by ring
      _ ≤ n := h
    have := ih (n / 10) hdiv
    simp only [List.length_append, List.length_singleton]
    omega

theorem decRepr_length_four (n : Nat) (hlo : 1000 ≤ n) (hhi : n < 10 ^ 4) :
    (decRepr n).length = 4 := by
  have h1 := decRepr_length_le n 4 (by omega) hhi
  have h2 := decRepr_length_lower 3 n (by omega)
  omega

/-! ## Lemmas: padded fields -/

theorem zfill_repr_data (w n : Nat) : (zfill w (Nat.repr n)).data = padDigits w n := by
  simp [zfill, padDigits, repr_eq_decRepr, String.length]

theorem padDigits_all_digit (w n : Nat) : ∀ c ∈ padDigits w n, c.isDigit = true := by
  intro c hc
  rcases List.mem_append.1 hc with h1 | h1
  · rw [List.eq_of_mem_replicate h1]; decide
  · exact decRepr_all_digit n c h1

theorem padDigits_length (w n : Nat) (h : (decRepr n).length ≤ w) :
    (padDigits w n).length = w := by
  simp only [padDigits, List.length_append, List.length_replicate]
  omega

theorem padDigits_length_of_lt (w n : Nat) (hw : 0 < w) (h : n < 10 ^ w) :
    (padDigits w n).length = w :=
  padDigits_length w n (decRepr_length_le n w hw h)

/-! ## Lemmas: the canonical-name matcher -/

theorem dropDigits_exact (l rest : List Char) (hd : ∀ c ∈ l, c.isDigit = true) :
    dropDigits l.length (l ++ rest) = some rest := by
  induction l with
  | nil => simp [dropDigits]
  | cons c t ih =>
    have hc := hd c (by simp)
    simp only [List.length_cons, List.cons_append, dropDigits, hc, if_true]
    exact ih (fun x hx => hd x (by simp [hx]))

theorem dropChar_cons (c : Char) (rest : List Char) :
    dropChar c (c :: rest) = some rest := by
  simp [dropChar]

theorem strftimeTarget_data (t : DateTime) :
    (strftimeTarget t).data =
      decRepr t.year ++ '-' :: (padDigits 2 t.month ++ '-' ::
        (padDigits 2 t.day ++ '_' :: (padDigits 2 t.hour ++ '-' ::
          (padDigits 2 t.minute ++ '-' :: padDigits 2 t.second)))) := by
  show (strftimeTarget t).data = _
  simp [strftimeTarget, String.data_append, zfill_repr_data, repr_data]

theorem mkName_data (fmt : String) (count : Nat) (ext : String) :
    (mkName fmt count ext).data = fmt.data ++ '_' :: (decRepr count ++ ext.data) := by
  simp [mkName, String.data_append, repr_data]

theorem parseFixed_concrete (a b c d e f tail : List Char)
    (ha : a.length = 4) (hb : b.length = 2) (hc : c.length = 2)
    (hd : d.length = 2) (he : e.length = 2) (hf : f.length = 2)
    (hda : ∀ x ∈ a, x.isDigit = true) (hdb : ∀ x ∈ b, x.isDigit = true)
    (hdc : ∀ x ∈ c, x.isDigit = true) (hdd : ∀ x ∈ d, x.isDigit = true)
    (hde : ∀ x ∈ e, x.isDigit = true) (hdf : ∀ x ∈ f, x.isDigit = true) :
    renamedMatch ⟨a ++ '-' :: (b ++ '-' :: (c ++ '_' :: (d ++ '-' ::
      (e ++ '-' :: (f ++ tail)))))⟩ = matchTail tail := by
  have h1 : dropDigits 4 (a ++ '-' :: (b ++ '-' :: (c ++ '_' :: (d ++ '-' ::
      (e ++ '-' :: (f ++ tail)))))) = some ('-' :: (b ++ '-' :: (c ++ '_' ::
      (d ++ '-' :: (e ++ '-' :: (f ++ tail)))))) := by
    rw [← ha]; exact dropDigits_exact a _ hda
  have h2 : dropDigits 2 (b ++ '-' :: (c ++ '_' :: (d ++ '-' ::
      (e ++ '-' :: (f ++ tail))))) = some ('-' :: (c ++ '_' ::
      (d ++ '-' :: (e ++ '-' :: (f ++ tail))))) := by
    rw [← hb]; exact dropDigits_exact b _ hdb
  have h3 : dropDigits 2 (c ++ '_' :: (d ++ '-' :: (e ++ '-' :: (f ++ tail)))) =
      some ('_' :: (d ++ '-' :: (e ++ '-' :: (f ++ tail)))) := by
    rw [← hc]; exact dropDigits_exact c _ hdc
  have h4 : dropDigits 2 (d ++ '-' :: (e ++ '-' :: (f ++ tail))) =
      some ('-' :: (e ++ '-' :: (f ++ tail))) := by
    rw [← hd]; exact dropDigits_exact d _ hdd
  have h5 : dropDigits 2 (e ++ '-' :: (f ++ tail)) = some ('-' :: (f ++ tail)) := by
    rw [← he]; exact dropDigits_exact e _ hde
  have h6 : dropDigits 2 (f ++ tail) = some tail := by
    rw [← hf]; exact dropDigits_exact f _ hdf
  simp [renamedMatch, h1, h2, h3, h4, h5, h6, dropChar_cons]

theorem takeWhile_digits_dot (ds t : List Char) (hds : ∀ c ∈ ds, c.isDigit = true)
    (ht : t = [] ∨ ∃ u, t = '.' :: u) :
    (ds ++ t).takeWhile Char.isDigit = ds ∧ (ds ++ t).dropWhile Char.isDigit = t := by
  induction ds with
  | nil =>
    rcases ht with h | ⟨u, h⟩ <;> subst h
    · simp
    · simp [List.takeWhile, List.dropWhile]
  | cons c l ih =>
    have hc := hds c (by simp)
    have := ih (fun x hx => hds x (by simp [hx]))
    simp [List.takeWhile, List.dropWhile, hc, this.1, this.2]

theorem matchTail_count_ext (count : Nat) (ext : String) (hext : extOk ext = true) :
    matchTail ('_' :: (decRepr count ++ ext.data)) = true := by
  have ht : ext.data = [] ∨ ∃ u, ext.data = '.' :: u := by
    cases hd : ext.data with
    | nil => exact Or.inl rfl
    | cons c u =>
      right
      refine ⟨u, ?_⟩
      simp only [extOk, hd, Bool.and_eq_true, decide_eq_true_eq] at hext
      rw [hext.1.1]
  have h := takeWhile_digits_dot (decRepr count) ext.data (decRepr_all_digit count) ht
  have hne : ((decRepr count ++ ext.data).takeWhile Char.isDigit).isEmpty = false := by
    rw [h.1]
    cases hd : decRepr count with
    | nil => exact absurd hd (decRepr_ne_nil count)
    | cons c u => simp
  simp only [matchTail, if_pos rfl, hne, Bool.false_eq_true, if_false, h.2]
  cases hd : ext.data with
  | nil => simp [matchExt]
  | cons c u =>
    simp only [extOk, hd, Bool.and_eq_true, decide_eq_true_eq] at hext
    simp [matchExt, hext.1.1, hext.1.2, hext.2]

theorem valid_bounds (dt : DateTime) (h : dt.valid = true) :
    1 ≤ dt.year ∧ dt.year < 10 ^ 4 ∧ dt.month < 10 ^ 2 ∧ dt.day < 10 ^ 2 ∧
    dt.hour < 10 ^ 2 ∧ dt.minute < 10 ^ 2 ∧ dt.second < 10 ^ 2 := by
  simp only [DateTime.valid, Bool.and_eq_true, decide_eq_true_eq] at h
  have hm : daysInMonth dt.year dt.month ≤ 31 := by
    simp only [daysInMonth]
    split <;> [split <;> omega; split <;> omega]
  omega

theorem renamedMatch_mkName (dt : DateTime) (hdt : dt.valid = true)
    (hyear : 1000 ≤ dt.year) (count : Nat)
    (ext : String) (hext : extOk ext = true) :
    renamedMatch (mkName (strftimeTarget dt) count ext) = true := by
  obtain ⟨h1, h2, h3, h4, h5, h6, h7⟩ := valid_bounds dt hdt
  have hmk : mkName (strftimeTarget dt) count ext =
      ⟨decRepr dt.year ++ '-' :: (padDigits 2 dt.month ++ '-' ::
        (padDigits 2 dt.day ++ '_' :: (padDigits 2 dt.hour ++ '-' ::
          (padDigits 2 dt.minute ++ '-' :: (padDigits 2 dt.second ++
            '_' :: (decRepr count ++ ext.data))))))⟩ := by
    apply String.ext
    rw [mkName_data, strftimeTarget_data]
    simp
  rw [hmk]
  rw [parseFixed_concrete _ _ _ _ _ _ _
    (decRepr_length_four dt.year hyear h2)
    (padDigits_length_of_lt 2 _ (by omega) h3)
    (padDigits_length_of_lt 2 _ (by omega) h4)
    (padDigits_length_of_lt 2 _ (by omega) h5)
    (padDigits_length_of_lt 2 _ (by omega) h6)
    (padDigits_length_of_lt 2 _ (by omega) h7)
    (decRepr_all_digit dt.year) (padDigits_all_digit 2 _) (padDigits_all_digit 2 _)
    (padDigits_all_digit 2 _) (padDigits_all_digit 2 _) (padDigits_all_digit 2 _)]
  exact matchTail_count_ext count ext hext

/-! ## Lemmas: lowercasing and extensions -/

theorem lowerChar_dot (c : Char) (h : lowerChar c = '.') : c = '.' := by
  unfold lowerChar at h
  cases hf : upperLowerTable.find? (fun p => p.1 == c) with
  | none => rw [hf] at h; simpa using h
  | some p =>
    rw [hf] at h
    simp only [Option.map, Option.getD_some] at h
    have hmem := List.mem_of_find?_eq_some hf
    have : ∀ q ∈ upperLowerTable, q.2 ≠ '.' := by decide
    exact absurd h (this p hmem)

theorem isWordChar_of_lowerChar (c : Char) (h : isWordChar (lowerChar c) = true) :
    isWordChar c = true := by
  cases hf : upperLowerTable.find? (fun p => p.1 == c) with
  | none =>
    unfold lowerChar at h
    rw [hf] at h
    exact h
  | some p =>
    have hp := List.find?_some hf
    have hc : p.1 = c := by simpa using hp
    have hmem := List.mem_of_find?_eq_some hf
    have : ∀ q ∈ upperLowerTable, isWordChar q.1 = true := by decide
    rw [← hc]
    exact this p hmem

theorem extOk_of_extOk_pyLower (s : String) (h : extOk (pyLower s) = true) :
    extOk s = true := by
  cases hs : s.data with
  | nil => simp [extOk, hs]
  | cons c u =>
    have hl : (pyLower s).data = lowerChar c :: u.map lowerChar := by
      simp [pyLower, hs]
    simp only [extOk, hl, Bool.and_eq_true, decide_eq_true_eq] at h
    obtain ⟨⟨hdot, hne⟩, hall⟩ := h
    have hc : c = '.' := lowerChar_dot c hdot
    have hu : u ≠ [] := by
      intro hnil
      subst hnil
      simp at hne
    simp only [extOk, hs, Bool.and_eq_true, decide_eq_true_eq]
    refine ⟨⟨hc, ?_⟩, ?_⟩
    · cases u with
      | nil => exact absurd rfl hu
      | cons x xs => simp
    · rw [List.all_eq_true] at hall ⊢
      intro x hx
      exact isWordChar_of_lowerChar x (hall (lowerChar x) (List.mem_map_of_mem lowerChar hx))

theorem extOk_of_mem_image (s : String)
    (h : pyLower s ∈ IMAGE_FILE_EXTENSIONS ∨ pyLower s ∈ VIDEO_FILE_EXTENSIONS) :
    extOk s = true := by
  apply extOk_of_extOk_pyLower
  have himg : ∀ x ∈ IMAGE_FILE_EXTENSIONS, extOk x = true := by decide
  have hvid : ∀ x ∈ VIDEO_FILE_EXTENSIONS, extOk x = true := by decide
  rcases h with h | h
  · exact himg _ h
  · exact hvid _ h

/-! ## Lemmas: choosing a free disambiguating count -/

theorem mkName_count_inj (f e : String) (c c' : Nat)
    (h : mkName f c e = mkName f c' e) : c = c' := by
  have hd := congrArg String.data h
  rw [mkName_data, mkName_data] at hd
  have h2 := List.append_cancel_left hd
  have h3 : decRepr c ++ e.data = decRepr c' ++ e.data := by
    injection h2
  exact decRepr_injective (List.append_cancel_right h3)

theorem findFreeCountAux_zero (disk : List String) (f e : String) (start : Nat) :
    findFreeCountAux disk f e 0 start = start := rfl

theorem findFreeCountAux_succ (disk : List String) (f e : String) (n start : Nat) :
    findFreeCountAux disk f e (n + 1) start =
      if mkName f start e ∈ disk then findFreeCountAux disk f e n (start + 1)
      else start := rfl

theorem findFreeCountAux_ge (disk : List String) (f e : String) :
    ∀ fuel start, start ≤ findFreeCountAux disk f e fuel start := by
  intro fuel
  induction fuel with
  | zero => intro start; rw [findFreeCountAux_zero]
  | succ n ih =>
    intro start
    rw [findFreeCountAux_succ]
    split
    · exact le_trans (by omega) (ih (start + 1))
    · exact le_refl start

theorem findFreeCountAux_min (disk : List String) (f e : String) :
    ∀ fuel start c, start ≤ c → c < findFreeCountAux disk f e fuel start →
      mkName f c e ∈ disk := by
  intro fuel
  induction fuel with
  | zero =>
    intro start c h1 h2
    rw [findFreeCountAux_zero] at h2
    omega
  | succ n ih =>
    intro start c h1 h2
    rw [findFreeCountAux_succ] at h2
    by_cases hmem : mkName f start e ∈ disk
    · rw [if_pos hmem] at h2
      by_cases hc : c = start
      · subst hc; exact hmem
      · exact ih (start + 1) c (by omega) h2
    · rw [if_neg hmem] at h2
      omega

theorem findFreeCountAux_not_mem_of_exists (disk : List String) (f e : String) :
    ∀ fuel start, (∃ i, i < fuel ∧ mkName f (start + i) e ∉ disk) →
      mkName f (findFreeCountAux disk f e fuel start) e ∉ disk := by
  intro fuel
  induction fuel with
  | zero =>
    rintro start ⟨i, hi, _⟩
    omega
  | succ n ih =>
    rintro start ⟨i, hi, hfree⟩
    rw [findFreeCountAux_succ]
    by_cases hmem : mkName f start e ∈ disk
    · rw [if_pos hmem]
      apply ih (start + 1)
      have hi0 : i ≠ 0 := by
        intro h0
        subst h0
        simp only [Nat.add_zero] at hfree
        exact hfree hmem
      refine ⟨i - 1, by omega, ?_⟩
      have heq : start + 1 + (i - 1) = start + i := by omega
      rw [heq]
      exact hfree
    · rw [if_neg hmem]
      exact hmem

theorem exists_free_count (disk : List String) (f e : String) (start : Nat) :
    ∃ i, i < disk.length + 1 ∧ mkName f (start + i) e ∉ disk := by
  by_contra hc
  push_neg at hc
  have hinj : Function.Injective (fun i => mkName f (start + i) e) := by
    intro a b hab
    have := mkName_count_inj f e (start + a) (start + b) hab
    omega
  have hnd : ((List.range (disk.length + 1)).map (fun i => mkName f (start + i) e)).Nodup :=
    (List.nodup_range _).map hinj
  have hsub : ((List.range (disk.length + 1)).map (fun i => mkName f (start + i) e)) ⊆ disk := by
    intro x hx
    rw [List.mem_map] at hx
    obtain ⟨i, hi, rfl⟩ := hx
    exact hc i (List.mem_range.1 hi)
  have hle := (hnd.subperm hsub).length_le
  rw [List.length_map, List.length_range] at hle
  omega

theorem findFreeCountAux_not_mem (disk : List String) (f e : String) (start : Nat) :
    mkName f (findFreeCountAux disk f e (disk.length + 1) start) e ∉ disk :=
  findFreeCountAux_not_mem_of_exists disk f e _ start (exists_free_count disk f e start)

/-! ## Lemmas: `_create_renamed_filename` -/

theorem create_renamed_not_mem (disk : List String) (counter : DateTime → Nat)
    (fileName : String) (ts : DateTime) :
    (_create_renamed_filename disk counter fileName ts).1 ∉ disk :=
  findFreeCountAux_not_mem disk _ _ _

theorem create_renamed_shape (disk : List String) (counter : DateTime → Nat)
    (fileName : String) (ts : DateTime) :
    ∃ c, counter ts ≤ c ∧
      (_create_renamed_filename disk counter fileName ts).1 =
        mkName (strftimeTarget ts) c (pySuffix fileName) ∧
      (_create_renamed_filename disk counter fileName ts).2 =
        fun d => if d = ts then c + 1 else counter d :=
  ⟨findFreeCountAux disk (strftimeTarget ts) (pySuffix fileName)
      (disk.length + 1) (counter ts),
    findFreeCountAux_ge disk _ _ _ _, rfl, rfl⟩

theorem create_renamed_counter_other (disk : List String) (counter : DateTime → Nat)
    (fileName : String) (ts d : DateTime) (h : d ≠ ts) :
    (_create_renamed_filename disk counter fileName ts).2 d = counter d := by
  simp [_create_renamed_filename, h]

/-! ## Lemmas: one scan-loop iteration -/

theorem scanStep_not_processable (disk : List String) (st : ScanState) (f : DirFile)
    (h : processable f = false) : scanStep disk st f = st := by
  by_cases h1 : f.isFile
  case neg => simp [scanStep, h1]
  by_cases h2 : renamedMatch f.name
  case pos => simp [scanStep, h1, h2]
  by_cases h3 : pyLower (pySuffix f.name) ∈ IMAGE_FILE_EXTENSIONS
  case pos => simp [processable, h1, h2, h3] at h
  by_cases h4 : pyLower (pySuffix f.name) ∈ VIDEO_FILE_EXTENSIONS
  case pos => simp [processable, h1, h2, h4] at h
  simp [scanStep, h1, h2, h3, h4]

theorem processable_parts (f : DirFile) (h : processable f = true) :
    f.isFile = true ∧ renamedMatch f.name = false ∧
      (pyLower (pySuffix f.name) ∈ IMAGE_FILE_EXTENSIONS ∨
       pyLower (pySuffix f.name) ∈ VIDEO_FILE_EXTENSIONS) := by
  simp only [processable, Bool.and_eq_true, Bool.or_eq_true, Bool.not_eq_true',
    decide_eq_true_eq] at h
  exact ⟨h.1.1, h.1.2, h.2⟩

theorem scanStep_none (disk : List String) (st : ScanState) (f : DirFile)
    (h : processable f = true) (hm : f.meta = none) :
    scanStep disk st f =
      { st with entries := st.entries ++ [⟨f.name, "", Status.no_date_found⟩] } := by
  obtain ⟨h1, h2, h3⟩ := processable_parts f h
  unfold scanStep
  rcases Classical.em (pyLower (pySuffix f.name) ∈ IMAGE_FILE_EXTENSIONS) with hi | hi
  · simp [h1, h2, hi, hm]
  · rcases h3 with h3 | h3
    · exact absurd h3 hi
    · simp [h1, h2, hi, h3, hm]

theorem scanStep_some (disk : List String) (st : ScanState) (f : DirFile)
    (ts : DateTime) (h : processable f = true) (hm : f.meta = some ts) :
    scanStep disk st f = scanDated disk st f ts := by
  obtain ⟨h1, h2, h3⟩ := processable_parts f h
  unfold scanStep
  rcases Classical.em (pyLower (pySuffix f.name) ∈ IMAGE_FILE_EXTENSIONS) with hi | hi
  · simp [h1, h2, hi, hm]
  · rcases h3 with h3 | h3
    · exact absurd h3 hi
    · simp [h1, h2, hi, h3, hm]

theorem scanDated_eq_of_mem (disk : List String) (st : ScanState) (f : DirFile)
    (ts : DateTime) (hname : f.name ∈ disk) :
    ∃ c, st.dateCounter ts ≤ c ∧
      mkName (strftimeTarget ts) c (pySuffix f.name) ∉ disk ∧
      scanDated disk st f ts =
        { dateCounter := fun d => if d = ts then c + 1 else st.dateCounter d,
          entries := st.entries ++
            [⟨f.name, mkName (strftimeTarget ts) c (pySuffix f.name), Status.ready⟩],
          pendingRenames := st.pendingRenames ++
            [⟨f.name, mkName (strftimeTarget ts) c (pySuffix f.name)⟩] } := by
  obtain ⟨c, hc, h1, h2⟩ := create_renamed_shape disk st.dateCounter f.name ts
  have hnot : mkName (strftimeTarget ts) c (pySuffix f.name) ∉ disk := by
    rw [← h1]
    exact create_renamed_not_mem disk st.dateCounter f.name ts
  have hne : mkName (strftimeTarget ts) c (pySuffix f.name) ≠ f.name := by
    intro heq
    rw [heq] at hnot
    exact hnot hname
  refine ⟨c, hc, hnot, ?_⟩
  unfold scanDated
  simp only [h1, h2, hne, ne_eq, not_false_eq_true, if_true, ite_true]

/-! ## Lemmas: the scan fold -/

theorem scanStep_prefix (disk : List String) (st : ScanState) (f : DirFile) :
    ∃ e p, (scanStep disk st f).entries = st.entries ++ e ∧
      (scanStep disk st f).pendingRenames = st.pendingRenames ++ p := by
  by_cases hp : processable f
  · cases hm : f.meta with
    | none =>
      rw [scanStep_none disk st f hp hm]
      exact ⟨_, [], rfl, by simp⟩
    | some ts =>
      rw [scanStep_some disk st f ts hp hm]
      unfold scanDated
      dsimp only
      split
      · exact ⟨_, _, rfl, rfl⟩
      · exact ⟨_, [], rfl, by simp⟩
  · rw [scanStep_not_processable disk st f (by simpa using hp)]
    exact ⟨[], [], by simp, by simp⟩

theorem scanFold_prefix (disk : List String) :
    ∀ (l : List DirFile) (st : ScanState),
      ∃ e p, (l.foldl (scanStep disk) st).entries = st.entries ++ e ∧
        (l.foldl (scanStep disk) st).pendingRenames = st.pendingRenames ++ p := by
  intro l
  induction l with
  | nil => intro st; exact ⟨[], [], by simp, by simp⟩
  | cons f t ih =>
    intro st
    rw [List.foldl_cons]
    obtain ⟨e1, p1, he1, hp1⟩ := scanStep_prefix disk st f
    obtain ⟨e2, p2, he2, hp2⟩ := ih (scanStep disk st f)
    exact ⟨e1 ++ e2, p1 ++ p2, by rw [he2, he1, List.append_assoc],
      by rw [hp2, hp1, List.append_assoc]⟩

theorem scanFold_entries_mem (disk : List String) (l : List DirFile) (st : ScanState)
    (x : FileEntry) (h : x ∈ st.entries) : x ∈ (l.foldl (scanStep disk) st).entries := by
  obtain ⟨e, p, he, _⟩ := scanFold_prefix disk l st
  rw [he]
  exact List.mem_append_left _ h

theorem scanFold_pending_mem (disk : List String) (l : List DirFile) (st : ScanState)
    (x : RenameJob) (h : x ∈ st.pendingRenames) :
    x ∈ (l.foldl (scanStep disk) st).pendingRenames := by
  obtain ⟨e, p, _, hp⟩ := scanFold_prefix disk l st
  rw [hp]
  exact List.mem_append_left _ h

theorem scanStep_entries_original (disk : List String) (st : ScanState) (f : DirFile)
    (hp : processable f = true) :
    (scanStep disk st f).entries.map (·.original_name) =
      st.entries.map (·.original_name) ++ [f.name] := by
  cases hm : f.meta with
  | none => rw [scanStep_none disk st f hp hm]; simp
  | some ts =>
    rw [scanStep_some disk st f ts hp hm]
    unfold scanDated
    dsimp only
    simp

theorem scanFold_originals (disk : List String) :
    ∀ (l : List DirFile) (st : ScanState),
      (l.foldl (scanStep disk) st).entries.map (·.original_name) =
        st.entries.map (·.original_name) ++ (l.filter processable).map (·.name) := by
  intro l
  induction l with
  | nil => intro st; simp
  | cons f t ih =>
    intro st
    rw [List.foldl_cons, ih (scanStep disk st f)]
    by_cases hp : processable f
    · rw [scanStep_entries_original disk st f hp, List.filter_cons_of_pos hp]
      simp
    · rw [scanStep_not_processable disk st f (by simpa using hp),
        List.filter_cons_of_neg (by simpa using hp)]

theorem scanFold_entries_char (disk : List String) :
    ∀ (l : List DirFile) (st : ScanState), (∀ f ∈ l, f.name ∈ disk) →
      ∀ e ∈ (l.foldl (scanStep disk) st).entries, e ∈ st.entries ∨
        ∃ f ∈ l, processable f = true ∧ e.original_name = f.name ∧
          ((f.meta = none ∧ e = ⟨f.name, "", Status.no_date_found⟩) ∨
           (∃ ts c, f.meta = some ts ∧
             e = ⟨f.name, mkName (strftimeTarget ts) c (pySuffix f.name), Status.ready⟩ ∧
             e.proposed_name ∉ disk)) := by
  intro l
  induction l with
  | nil => intro st _ e he; exact Or.inl he
  | cons f t ih =>
    intro st hl e he
    rw [List.foldl_cons] at he
    rcases ih (scanStep disk st f) (fun g hg => hl g (List.mem_cons_of_mem f hg)) e he with
      h | ⟨g, hg, hrest⟩
    · by_cases hp : processable f
      · cases hm : f.meta with
        | none =>
          rw [scanStep_none disk st f hp hm] at h
          rcases List.mem_append.1 h with h1 | h1
          · exact Or.inl h1
          · rw [List.mem_singleton] at h1
            exact Or.inr ⟨f, List.mem_cons_self f t, hp, by rw [h1], Or.inl ⟨hm, h1⟩⟩
        | some ts =>
          obtain ⟨c, _, hnot, heq⟩ :=
            scanDated_eq_of_mem disk st f ts (hl f (List.mem_cons_self f t))
          rw [scanStep_some disk st f ts hp hm, heq] at h
          rcases List.mem_append.1 h with h1 | h1
          · exact Or.inl h1
          · rw [List.mem_singleton] at h1
            refine Or.inr ⟨f, List.mem_cons_self f t, hp, by rw [h1],
              Or.inr ⟨ts, c, hm, h1, ?_⟩⟩
            rw [h1]
            exact hnot
      · rw [scanStep_not_processable disk st f (by simpa using hp)] at h
        exact Or.inl h
    · exact Or.inr ⟨g, List.mem_cons_of_mem f hg, hrest⟩

theorem scanFold_jobs_char (disk : List String) :
    ∀ (l : List DirFile) (st : ScanState), (∀ f ∈ l, f.name ∈ disk) →
      ∀ job ∈ (l.foldl (scanStep disk) st).pendingRenames, job ∈ st.pendingRenames ∨
        ∃ f ∈ l, ∃ ts c, processable f = true ∧ f.meta = some ts ∧
          job.original_name = f.name ∧
          job.proposed_name = mkName (strftimeTarget ts) c (pySuffix f.name) ∧
          job.proposed_name ∉ disk := by
  intro l
  induction l with
  | nil => intro st _ job hj; exact Or.inl hj
  | cons f t ih =>
    intro st hl job hj
    rw [List.foldl_cons] at hj
    rcases ih (scanStep disk st f) (fun g hg => hl g (List.mem_cons_of_mem f hg)) job hj with
      h | ⟨g, hg, hrest⟩
    · by_cases hp : processable f
      · cases hm : f.meta with
        | none =>
          rw [scanStep_none disk st f hp hm] at h
          exact Or.inl h
        | some ts =>
          obtain ⟨c, _, hnot, heq⟩ :=
            scanDated_eq_of_mem disk st f ts (hl f (List.mem_cons_self f t))
          rw [scanStep_some disk st f ts hp hm, heq] at h
          rcases List.mem_append.1 h with h1 | h1
          · exact Or.inl h1
          · rw [List.mem_singleton] at h1
            refine Or.inr ⟨f, List.mem_cons_self f t, ts, c, hp, hm, by rw [h1],
              by rw [h1], ?_⟩
            rw [h1]
            exact hnot
      · rw [scanStep_not_processable disk st f (by simpa using hp)] at h
        exact Or.inl h
    · exact Or.inr ⟨g, List.mem_cons_of_mem f hg, hrest⟩

theorem scanFold_ndf_mem (disk : List String) :
    ∀ (l : List DirFile) (st : ScanState) (f : DirFile), f ∈ l →
      processable f = true → f.meta = none →
      (⟨f.name, "", Status.no_date_found⟩ : FileEntry) ∈
        (l.foldl (scanStep disk) st).entries := by
  intro l
  induction l with
  | nil => intro st f h; exact absurd h (List.not_mem_nil f)
  | cons g t ih =>
    intro st f hf hp hm
    rw [List.foldl_cons]
    rcases List.mem_cons.1 hf with h | h
    · subst h
      apply scanFold_entries_mem
      rw [scanStep_none disk st f hp hm]
      simp
    · exact ih (scanStep disk st g) f h hp hm

theorem scanFold_job_exists (disk : List String) :
    ∀ (l : List DirFile) (st : ScanState) (f : DirFile) (ts : DateTime), f ∈ l →
      processable f = true → f.meta = some ts → f.name ∈ disk →
      ∃ job ∈ (l.foldl (scanStep disk) st).pendingRenames,
        job.original_name = f.name := by
  intro l
  induction l with
  | nil => intro st f ts h; exact absurd h (List.not_mem_nil f)
  | cons g t ih =>
    intro st f ts hf hp hm hname
    rw [List.foldl_cons]
    rcases List.mem_cons.1 hf with h | h
    · subst h
      obtain ⟨c, _, _, heq⟩ := scanDated_eq_of_mem disk st f ts hname
      refine ⟨⟨f.name, mkName (strftimeTarget ts) c (pySuffix f.name)⟩, ?_, rfl⟩
      apply scanFold_pending_mem
      rw [scanStep_some disk st f ts hp hm, heq]
      simp
    · exact ih (scanStep disk st g) f ts h hp hm hname

/-! ## Lemmas: sequential counts for one timestamp (the `_date_counter` invariant) -/

theorem candidate_matches (f : DirFile) (hp : processable f = true) (ts : DateTime)
    (hts : ts.valid = true) (hyear : 1000 ≤ ts.year) (c : Nat) :
    renamedMatch (mkName (strftimeTarget ts) c (pySuffix f.name)) = true :=
  renamedMatch_mkName ts hts hyear c _ (extOk_of_mem_image _ (processable_parts f hp).2.2)

theorem create_renamed_exact (disk : List String) (counter : DateTime → Nat)
    (nm : String) (ts : DateTime)
    (h : mkName (strftimeTarget ts) (counter ts) (pySuffix nm) ∉ disk) :
    _create_renamed_filename disk counter nm ts =
      (mkName (strftimeTarget ts) (counter ts) (pySuffix nm),
       fun d => if d = ts then counter ts + 1 else counter d) := by
  simp only [_create_renamed_filename]
  rw [findFreeCountAux_succ, if_neg h]

theorem scanDated_exact (disk : List String) (st : ScanState) (f : DirFile)
    (ts : DateTime)
    (hfree : mkName (strftimeTarget ts) (st.dateCounter ts) (pySuffix f.name) ∉ disk)
    (hname : f.name ∈ disk) :
    scanDated disk st f ts =
      { dateCounter := fun d => if d = ts then st.dateCounter ts + 1 else st.dateCounter d,
        entries := st.entries ++
          [⟨f.name, mkName (strftimeTarget ts) (st.dateCounter ts) (pySuffix f.name),
            Status.ready⟩],
        pendingRenames := st.pendingRenames ++
          [⟨f.name, mkName (strftimeTarget ts) (st.dateCounter ts) (pySuffix f.name)⟩] } := by
  have hne : mkName (strftimeTarget ts) (st.dateCounter ts) (pySuffix f.name) ≠ f.name := by
    intro heq
    rw [heq] at hfree
    exact hfree hname
  unfold scanDated
  simp only [create_renamed_exact disk st.dateCounter f.name ts hfree, hne, ne_eq,
    not_false_eq_true, if_true, ite_true]

theorem scanFold_counter_ts (disk : List String) (ts : DateTime)
    (hts : ts.valid = true) (hyear : 1000 ≤ ts.year)
    (hdisk : ∀ n ∈ disk, renamedMatch n = false) :
    ∀ (l : List DirFile) (st : ScanState), (∀ f ∈ l, f.name ∈ disk) →
      ∀ (j : Nat) (g : DirFile),
        (l.filter (fun f => processable f && f.meta == some ts)).get? j = some g →
        (⟨g.name, mkName (strftimeTarget ts) (st.dateCounter ts + j) (pySuffix g.name),
          Status.ready⟩ : FileEntry) ∈ (l.foldl (scanStep disk) st).entries := by
  intro l
  induction l with
  | nil =>
    intro st _ j g hget
    simp at hget
  | cons f t ih =>
    intro st hl j g hget
    have hlt : ∀ g ∈ t, g.name ∈ disk := fun g hg => hl g (List.mem_cons_of_mem f hg)
    by_cases hpred : (processable f && f.meta == some ts) = true
    · have hp : processable f = true := by
        simp only [Bool.and_eq_true] at hpred
        exact hpred.1
      have hm : f.meta = some ts := by
        simp only [Bool.and_eq_true, beq_iff_eq] at hpred
        exact hpred.2
      have hfree : mkName (strftimeTarget ts) (st.dateCounter ts) (pySuffix f.name) ∉ disk := by
        intro hmem
        have := hdisk _ hmem
        rw [candidate_matches f hp ts hts hyear] at this
        exact absurd this (by simp)
      have hstep : scanStep disk st f = scanDated disk st f ts :=
        scanStep_some disk st f ts hp hm
      have hexact := scanDated_exact disk st f ts hfree (hl f (List.mem_cons_self f t))
      have hfil : List.filter (fun g => processable g && g.meta == some ts) (f :: t) =
          f :: List.filter (fun g => processable g && g.meta == some ts) t := by
        simp [List.filter_cons, hpred]
      rw [hfil] at hget
      rw [List.foldl_cons, hstep, hexact]
      cases j with
      | zero =>
        rw [List.get?_cons_zero] at hget
        injection hget with hget
        subst hget
        apply scanFold_entries_mem
        simp
      | succ j' =>
        rw [List.get?_cons_succ] at hget
        have := ih { dateCounter := fun d => if d = ts then st.dateCounter ts + 1
                       else st.dateCounter d,
                     entries := st.entries ++
                       [⟨f.name, mkName (strftimeTarget ts) (st.dateCounter ts)
                           (pySuffix f.name), Status.ready⟩],
                     pendingRenames := st.pendingRenames ++
                       [⟨f.name, mkName (strftimeTarget ts) (st.dateCounter ts)
                           (pySuffix f.name)⟩] } hlt j' g hget
        dsimp only at this
        rw [if_pos rfl] at this
        have harith : st.dateCounter ts + 1 + j' = st.dateCounter ts + (j' + 1) := by omega
        rw [harith] at this
        exact this
    · have hpred' : (processable f && f.meta == some ts) = false := by
        simpa using hpred
      have hcount : (scanStep disk st f).dateCounter ts = st.dateCounter ts := by
        by_cases hp : processable f
        · cases hm : f.meta with
          | none => rw [scanStep_none disk st f hp hm]
          | some ts' =>
            have hne : ts' ≠ ts := by
              intro heq
              subst heq
              rw [hp, hm] at hpred'
              simp at hpred'
            obtain ⟨c, _, _, heq⟩ :=
              scanDated_eq_of_mem disk st f ts' (hl f (List.mem_cons_self f t))
            rw [scanStep_some disk st f ts' hp hm, heq]
            simp only []
            rw [if_neg (Ne.symm hne)]
        · rw [scanStep_not_processable disk st f (by simpa using hp)]
      have hfil : List.filter (fun g => processable g && g.meta == some ts) (f :: t) =
          List.filter (fun g => processable g && g.meta == some ts) t := by
        simp [List.filter_cons, hpred']
      rw [hfil] at hget
      rw [List.foldl_cons]
      have := ih (scanStep disk st f) hlt j g hget
      rw [hcount] at this
      exact this

/-! ## Lemmas: the rename executor -/

theorem renameJobStep_conflict (osFail : String → String → Bool) (dir : List DirFile)
    (job : RenameJob) (h : job.proposed_name ∈ dir.map (·.name)) :
    renameJobStep osFail dir job = (Status.conflict, dir) := by
  simp [renameJobStep, h]

theorem renameJobStep_error (osFail : String → String → Bool) (dir : List DirFile)
    (job : RenameJob) (h1 : job.proposed_name ∉ dir.map (·.name))
    (h2 : osFail job.original_name job.proposed_name = true) :
    renameJobStep osFail dir job = (Status.error, dir) := by
  simp [renameJobStep, h1, h2]

theorem renameJobStep_renamed (osFail : String → String → Bool) (dir : List DirFile)
    (job : RenameJob) (h1 : job.proposed_name ∉ dir.map (·.name))
    (h2 : osFail job.original_name job.proposed_name = false) :
    renameJobStep osFail dir job = (Status.renamed, applyRename dir job) := by
  simp [renameJobStep, applyRename, h1, h2]

theorem renameFold_acc (osFail : String → String → Bool) :
    ∀ (jobs : List RenameJob) (d : List DirFile) (res : List (RenameJob × Status)),
      jobs.foldl
        (fun acc job =>
          let r := renameJobStep osFail acc.1 job
          (r.2, acc.2 ++ [(job, r.1)])) (d, res) =
      ((_start_renaming osFail d jobs).1, res ++ (_start_renaming osFail d jobs).2) := by
  intro jobs
  induction jobs with
  | nil => intro d res; simp [_start_renaming]
  | cons j t ih =>
    intro d res
    rw [List.foldl_cons]
    dsimp only
    rw [ih]
    have h2 : _start_renaming osFail d (j :: t) =
        ((_start_renaming osFail (renameJobStep osFail d j).2 t).1,
          (j, (renameJobStep osFail d j).1) ::
            (_start_renaming osFail (renameJobStep osFail d j).2 t).2) := by
      show (j :: t).foldl _ (d, []) = _
      rw [List.foldl_cons]
      dsimp only
      rw [ih]
      simp
    rw [h2]
    simp

theorem start_renaming_cons (osFail : String → String → Bool) (dir : List DirFile)
    (j : RenameJob) (t : List RenameJob) :
    _start_renaming osFail dir (j :: t) =
      ((_start_renaming osFail (renameJobStep osFail dir j).2 t).1,
        (j, (renameJobStep osFail dir j).1) ::
          (_start_renaming osFail (renameJobStep osFail dir j).2 t).2) := by
  show (j :: t).foldl _ (dir, []) = _
  rw [List.foldl_cons]
  dsimp only
  rw [renameFold_acc]
  simp

theorem start_renaming_length (osFail : String → String → Bool) :
    ∀ (jobs : List RenameJob) (dir : List DirFile),
      (_start_renaming osFail dir jobs).2.length = jobs.length := by
  intro jobs
  induction jobs with
  | nil => intro dir; rfl
  | cons j t ih =>
    intro dir
    rw [start_renaming_cons]
    simp [ih]

theorem start_renaming_status_cases (osFail : String → String → Bool) :
    ∀ (jobs : List RenameJob) (dir : List DirFile),
      ∀ p ∈ (_start_renaming osFail dir jobs).2,
        p.2 = Status.conflict ∨ p.2 = Status.error ∨ p.2 = Status.renamed := by
  intro jobs
  induction jobs with
  | nil => intro dir p hp; simp [_start_renaming] at hp
  | cons j t ih =>
    intro dir p hp
    rw [start_renaming_cons] at hp
    rcases List.mem_cons.1 hp with h | h
    · subst h
      dsimp only
      unfold renameJobStep
      split
      · exact Or.inl rfl
      · split
        · exact Or.inr (Or.inl rfl)
        · exact Or.inr (Or.inr rfl)
    · exact ih _ p h

theorem exec_all_renamed (osFail : String → String → Bool) :
    ∀ (jobs : List RenameJob) (dir : List DirFile),
      (∀ p ∈ (_start_renaming osFail dir jobs).2, p.2 = Status.renamed) →
      (_start_renaming osFail dir jobs).1 = jobs.foldl applyRename dir := by
  intro jobs
  induction jobs with
  | nil => intro dir _; rfl
  | cons j t ih =>
    intro dir hall
    rw [start_renaming_cons] at hall ⊢
    have hj : (renameJobStep osFail dir j).1 = Status.renamed :=
      hall (j, (renameJobStep osFail dir j).1) (List.mem_cons_self _ _)
    have hstep : renameJobStep osFail dir j = (Status.renamed, applyRename dir j) := by
      unfold renameJobStep at hj ⊢
      split at hj
      · exact absurd hj (by simp)
      · split at hj
        · exact absurd hj (by simp)
        · rename_i h1 h2
          rw [if_neg h1, if_neg h2]
          rfl
    dsimp only
    rw [List.foldl_cons]
    rw [hstep] at hall ⊢
    exact ih (applyRename dir j) (fun p hp => hall p (List.mem_cons_of_mem _ hp))

/-! ## Lemmas: the state after a fully successful batch -/

theorem applyRenames_invariant :
    ∀ (jobs : List RenameJob) (cur : List DirFile),
      (∀ job ∈ jobs, renamedMatch job.proposed_name = true ∧
        renamedMatch job.original_name = false) →
      (∀ g ∈ cur, renamedMatch g.name = true ∨ processable g = false ∨
        g.meta = none ∨ ∃ job ∈ jobs, job.original_name = g.name) →
      ∀ g ∈ jobs.foldl applyRename cur,
        renamedMatch g.name = true ∨ processable g = false ∨ g.meta = none := by
  intro jobs
  induction jobs with
  | nil =>
    intro cur _ hcur g hg
    rcases hcur g hg with h | h | h | ⟨job, hj, _⟩
    · exact Or.inl h
    · exact Or.inr (Or.inl h)
    · exact Or.inr (Or.inr h)
    · exact absurd hj (List.not_mem_nil job)
  | cons j t ih =>
    intro cur hjobs hcur g hg
    rw [List.foldl_cons] at hg
    refine ih (applyRename cur j)
      (fun job hj => hjobs job (List.mem_cons_of_mem _ hj)) ?_ g hg
    intro g' hg'
    unfold applyRename at hg'
    rw [List.mem_map] at hg'
    obtain ⟨g0, hg0, heq⟩ := hg'
    by_cases hname : g0.name = j.original_name
    · rw [if_pos hname] at heq
      subst heq
      exact Or.inl (hjobs j (List.mem_cons_self _ _)).1
    · rw [if_neg hname] at heq
      subst heq
      rcases hcur g0 hg0 with h | h | h | ⟨job, hj, horig⟩
      · exact Or.inl h
      · exact Or.inr (Or.inl h)
      · exact Or.inr (Or.inr (Or.inl h))
      · rcases List.mem_cons.1 hj with hjj | hjj
        · subst hjj
          exact absurd horig.symm hname
        · exact Or.inr (Or.inr (Or.inr ⟨job, hjj, horig⟩))

/-! ## Lemmas: `_scan_directory` at top level -/

theorem mergeSort_names_mem (dir : List DirFile) :
    ∀ f ∈ dir.mergeSort (fun a b => a.name ≤ b.name), f.name ∈ dir.map (·.name) := by
  intro f hf
  exact List.mem_map_of_mem _
    ((List.mergeSort_perm dir (fun a b => a.name ≤ b.name)).mem_iff.1 hf)

theorem scan_directory_eq (dir : List DirFile) :
    _scan_directory dir =
      (dir.mergeSort (fun a b => a.name ≤ b.name)).foldl
        (scanStep (dir.map (·.name))) ⟨fun _ => 0, [], []⟩ := rfl

theorem rescan_no_ready (dirAfter : List DirFile)
    (h : ∀ g ∈ dirAfter, renamedMatch g.name = true ∨ processable g = false ∨
      g.meta = none) :
    ∀ e ∈ (_scan_directory dirAfter).entries, e.status ≠ Status.ready := by
  intro e he hst
  rw [scan_directory_eq] at he
  have hchar := scanFold_entries_char (dirAfter.map (·.name))
      (dirAfter.mergeSort (fun a b => a.name ≤ b.name))
      (⟨fun _ => 0, [], []⟩ : ScanState)
      (mergeSort_names_mem dirAfter)
  rcases hchar e he with h0 | ⟨f, hf, hp, _, hcase⟩
  · simp at h0
  · have hfd : f ∈ dirAfter :=
      (List.mergeSort_perm dirAfter (fun a b => a.name ≤ b.name)).mem_iff.1 hf
    rcases h f hfd with hh | hh | hh
    · have := (processable_parts f hp).2.1
      rw [hh] at this
      exact absurd this (by simp)
    · rw [hp] at hh
      exact absurd hh (by simp)
    · rcases hcase with ⟨_, heq⟩ | ⟨ts, c, hsome, _, _⟩
      · rw [heq] at hst
        exact absurd hst (by simp)
      · rw [hh] at hsome
        exact absurd hsome (by simp)

theorem scan_directory_originals (dir : List DirFile) :
    (_scan_directory dir).entries.map (·.original_name) =
      (((dir.mergeSort (fun a b => a.name ≤ b.name)).filter processable).map (·.name)) := by
  rw [scan_directory_eq, scanFold_originals]
  simp

/-! ## Lemmas: the scan is insensitive to listing order (up to the sort) -/

theorem findFreeCountAux_congr (disk1 disk2 : List String)
    (hmem : ∀ n, n ∈ disk1 ↔ n ∈ disk2) (f e : String) :
    ∀ fuel start, findFreeCountAux disk1 f e fuel start =
      findFreeCountAux disk2 f e fuel start := by
  intro fuel
  induction fuel with
  | zero => intro start; rfl
  | succ n ih =>
    intro start
    rw [findFreeCountAux_succ, findFreeCountAux_succ]
    by_cases hm : mkName f start e ∈ disk1
    · rw [if_pos hm, if_pos ((hmem _).1 hm), ih]
    · rw [if_neg hm, if_neg (fun hc => hm ((hmem _).2 hc))]

theorem scanStep_congr_disk (disk1 disk2 : List String)
    (hmem : ∀ n, n ∈ disk1 ↔ n ∈ disk2) (hlen : disk1.length = disk2.length) :
    ∀ (st : ScanState) (f : DirFile), scanStep disk1 st f = scanStep disk2 st f := by
  intro st f
  have hcreate : ∀ (counter : DateTime → Nat) (nm : String) (ts : DateTime),
      _create_renamed_filename disk1 counter nm ts =
        _create_renamed_filename disk2 counter nm ts := by
    intro counter nm ts
    simp only [_create_renamed_filename]
    rw [findFreeCountAux_congr disk1 disk2 hmem _ _ (disk1.length + 1), hlen]
  have hdated : ∀ ts, scanDated disk1 st f ts = scanDated disk2 st f ts := by
    intro ts
    unfold scanDated
    rw [hcreate]
  unfold scanStep
  rcases hmeta : f.meta with _ | ts <;> simp [hdated]

theorem scanFold_congr (disk1 disk2 : List String)
    (hstep : ∀ (st : ScanState) (f : DirFile),
      scanStep disk1 st f = scanStep disk2 st f) :
    ∀ (l : List DirFile) (st : ScanState),
      l.foldl (scanStep disk1) st = l.foldl (scanStep disk2) st := by
  intro l
  induction l with
  | nil => intro st; rfl
  | cons f t ih =>
    intro st
    rw [List.foldl_cons, List.foldl_cons, hstep, ih]

theorem scan_directory_congr (dir1 dir2 : List DirFile) (hperm : dir1.Perm dir2)
    (hnd : (dir2.map (·.name)).Nodup) : _scan_directory dir1 = _scan_directory dir2 := by
  have hsort : dir1.mergeSort (fun a b => a.name ≤ b.name) =
      dir2.mergeSort (fun a b => a.name ≤ b.name) := by
    have hperm2 : (dir1.mergeSort (fun a b => a.name ≤ b.name)).Perm
        (dir2.mergeSort (fun a b => a.name ≤ b.name)) :=
      ((List.mergeSort_perm dir1 _).trans hperm).trans
        (List.mergeSort_perm dir2 _).symm
    have hs1 : List.Pairwise (fun a b : DirFile => a.name ≤ b.name)
        (dir1.mergeSort (fun a b => a.name ≤ b.name)) := by
      have := @List.sorted_mergeSort DirFile (fun a b : DirFile => decide (a.name ≤ b.name))
        (fun a b c hab hbc => by
          simp only [decide_eq_true_eq] at hab hbc ⊢
          exact le_trans hab hbc)
        (fun a b => by
          simp only [Bool.or_eq_true, decide_eq_true_eq]
          exact le_total a.name b.name) dir1
      exact this.imp (fun h => by simpa using h)
    have hs2 : List.Pairwise (fun a b : DirFile => a.name ≤ b.name)
        (dir2.mergeSort (fun a b => a.name ≤ b.name)) := by
      have := @List.sorted_mergeSort DirFile (fun a b : DirFile => decide (a.name ≤ b.name))
        (fun a b c hab hbc => by
          simp only [decide_eq_true_eq] at hab hbc ⊢
          exact le_trans hab hbc)
        (fun a b => by
          simp only [Bool.or_eq_true, decide_eq_true_eq]
          exact le_total a.name b.name) dir2
      exact this.imp (fun h => by simpa using h)
    have hnd1 : List.Pairwise (fun a b : DirFile => a.name ≠ b.name)
        (dir1.mergeSort (fun a b => a.name ≤ b.name)) := by
      have hn2 : List.Pairwise (fun a b : DirFile => a.name ≠ b.name) dir2 := by
        have := hnd
        rw [List.Nodup, List.pairwise_map] at this
        exact this
      have hn1 : List.Pairwise (fun a b : DirFile => a.name ≠ b.name) dir1 :=
        (hperm.pairwise_iff (fun h => Ne.symm h)).2 hn2
      exact ((List.mergeSort_perm dir1 _).pairwise_iff
        (fun h => Ne.symm h)).2 hn1
    have hstrict1 : List.Sorted (fun a b : DirFile => a.name < b.name)
        (dir1.mergeSort (fun a b => a.name ≤ b.name)) := by
      have := hs1.and hnd1
      exact this.imp (fun h => lt_of_le_of_ne h.1 h.2)
    have hstrict2 : List.Sorted (fun a b : DirFile => a.name < b.name)
        (dir2.mergeSort (fun a b => a.name ≤ b.name)) := by
      have hnd2 : List.Pairwise (fun a b : DirFile => a.name ≠ b.name)
          (dir2.mergeSort (fun a b => a.name ≤ b.name)) := by
        have hn2 : List.Pairwise (fun a b : DirFile => a.name ≠ b.name) dir2 := by
          have := hnd
          rw [List.Nodup, List.pairwise_map] at this
          exact this
        exact ((List.mergeSort_perm dir2 _).pairwise_iff
          (fun h => Ne.symm h)).2 hn2
      have := hs2.and hnd2
      exact this.imp (fun h => lt_of_le_of_ne h.1 h.2)
    haveI : IsAntisymm DirFile (fun a b : DirFile => a.name < b.name) :=
      ⟨fun a b h1 h2 => absurd h2 (lt_asymm h1)⟩
    exact List.eq_of_perm_of_sorted hperm2 hstrict1 hstrict2
  rw [scan_directory_eq, scan_directory_eq, hsort]
  have hmem : ∀ n, n ∈ dir1.map (·.name) ↔ n ∈ dir2.map (·.name) := by
    intro n
    constructor <;> intro h
    · rw [List.mem_map] at h ⊢
      obtain ⟨f, hf, rfl⟩ := h
      exact ⟨f, hperm.mem_iff.1 hf, rfl⟩
    · rw [List.mem_map] at h ⊢
      obtain ⟨f, hf, rfl⟩ := h
      exact ⟨f, hperm.mem_iff.2 hf, rfl⟩
  have hlen : (dir1.map (·.name)).length = (dir2.map (·.name)).length := by
    simp [hperm.length_eq]
  have hstep : ∀ (st : ScanState) (f : DirFile),
      scanStep (dir1.map (·.name)) st f = scanStep (dir2.map (·.name)) st f :=
    scanStep_congr_disk _ _ hmem hlen
  exact scanFold_congr _ _ hstep _ _

/-! ## Lemmas: properties of the name sort -/

theorem pairwise_le_mergeSort (dir : List DirFile) :
    List.Pairwise (fun a b : DirFile => a.name ≤ b.name)
      (dir.mergeSort (fun a b => a.name ≤ b.name)) := by
  have := @List.sorted_mergeSort DirFile (fun a b : DirFile => decide (a.name ≤ b.name))
    (fun a b c hab hbc => by
      simp only [decide_eq_true_eq] at hab hbc ⊢
      exact le_trans hab hbc)
    (fun a b => by
      simp only [Bool.or_eq_true, decide_eq_true_eq]
      exact le_total a.name b.name) dir
  exact this.imp (fun h => by simpa using h)

theorem pairwise_ne_of_nodup_names (l : List DirFile) (hnd : (l.map (·.name)).Nodup) :
    List.Pairwise (fun a b : DirFile => a.name ≠ b.name) l := by
  have := hnd
  rw [List.Nodup, List.pairwise_map] at this
  exact this

theorem strict_sorted_mergeSort (dir : List DirFile)
    (hnd : (dir.map (·.name)).Nodup) :
    List.Pairwise (fun a b : DirFile => a.name < b.name)
      (dir.mergeSort (fun a b => a.name ≤ b.name)) := by
  have hne : List.Pairwise (fun a b : DirFile => a.name ≠ b.name)
      (dir.mergeSort (fun a b => a.name ≤ b.name)) :=
    ((List.mergeSort_perm dir _).pairwise_iff (fun h => Ne.symm h)).2
      (pairwise_ne_of_nodup_names dir hnd)
  exact ((pairwise_le_mergeSort dir).and hne).imp
    (fun h => lt_of_le_of_ne h.1 h.2)

theorem mergeSort_eq_of_sorted (l : List DirFile)
    (hs : List.Pairwise (fun a b : DirFile => a.name < b.name) l) :
    l.mergeSort (fun a b => a.name ≤ b.name) = l := by
  have hnd : (l.map (·.name)).Nodup := by
    rw [List.Nodup, List.pairwise_map]
    exact hs.imp (fun h => ne_of_lt h)
  haveI : IsAntisymm DirFile (fun a b : DirFile => a.name < b.name) :=
    ⟨fun a b h1 h2 => absurd h2 (lt_asymm h1)⟩
  exact List.eq_of_perm_of_sorted (List.mergeSort_perm l _)
    (strict_sorted_mergeSort l hnd) hs

/-! ## Lemmas: the progress fraction stream -/

theorem update_results_length (total : Nat) :
    (_update_results total).length = total + 1 := by
  simp [_update_results]

theorem update_results_get (total i : Nat) (h : i < total) :
    (_update_results total).get? i = some (((i + 1 : Nat) : ℚ) / (total : ℚ)) := by
  unfold _update_results
  rw [List.get?_append (by simpa using h), List.get?_map, List.get?_range h]
  rfl

theorem update_results_bounds (total : Nat) (htotal : 1 ≤ total) :
    ∀ x ∈ _update_results total, 0 ≤ x ∧ x ≤ 1 := by
  intro x hx
  unfold _update_results at hx
  rcases List.mem_append.1 hx with h | h
  · rw [List.mem_map] at h
    obtain ⟨i, hi, rfl⟩ := h
    rw [List.mem_range] at hi
    have htpos : (0 : ℚ) < (total : ℚ) := by
      exact_mod_cast htotal
    constructor
    · positivity
    · rw [div_le_one htpos]
      exact_mod_cast hi
  · rw [List.mem_singleton] at h
    subst h
    norm_num

theorem update_results_pairwise (total : Nat) (htotal : 1 ≤ total) :
    List.Pairwise (· ≤ ·) (_update_results total) := by
  unfold _update_results
  rw [List.pairwise_append]
  have htpos : (0 : ℚ) < (total : ℚ) := by exact_mod_cast htotal
  refine ⟨?_, by simp, ?_⟩
  · rw [List.pairwise_map]
    have := List.pairwise_lt_range total
    exact this.imp (fun h => by
      apply div_le_div_of_nonneg_right ?_ (le_of_lt htpos)
      exact_mod_cast Nat.succ_le_succ (le_of_lt h))
  · intro a ha b hb
    rw [List.mem_singleton] at hb
    subst hb
    rw [List.mem_map] at ha
    obtain ⟨i, hi, rfl⟩ := ha
    rw [List.mem_range] at hi
    rw [div_le_one htpos]
    exact_mod_cast hi

theorem update_results_last (total : Nat) :
    (_update_results total).getLast? = some 1 := by
  unfold _update_results
  rw [List.getLast?_concat]

theorem pairwise_name_lt_of_data (l : List DirFile)
    (h : List.Pairwise (fun a b : DirFile => a.name.data < b.name.data) l) :
    List.Pairwise (fun a b : DirFile => a.name < b.name) l :=
  h.imp (fun hab => String.lt_iff_toList_lt.mpr hab)

/-! ## The claims -/

/-- Claim C5: for every image file, the extractor looks up capture-date tags
in the fixed priority order `"EXIF DateTimeOriginal"` first, falling back to
`"Image DateTime"` only when the first tag is absent, parses the selected
tag's textual value with the fixed format `YYYY:MM:DD HH:MM:SS`, and yields
`none` when neither tag is present. -/
theorem claim_c5_tag_priority (tags : List (String × String)) :
    extract_date_from_image tags = specTagPriorityExtract tags := by
  cases h1 : lookupTag tags "EXIF DateTimeOriginal" <;>
    cases h2 : lookupTag tags "Image DateTime" <;>
      simp [extract_date_from_image, specTagPriorityExtract, firstPresentTag,
        EXIF_DATE_TAGS, h1, h2]

/-- Claim C6: the planner's `while` loop starts at the counter value and
increments, re-checking disk existence, until it finds a name not on disk:
the chosen name never collides with a pre-existing file, it carries some
count at least the counter value, and every smaller candidate count from
the counter value up was skipped precisely because its name exists on
disk. -/
theorem claim_c6_no_disk_collision (disk : List String) (counter : DateTime → Nat)
    (fileName : String) (ts : DateTime) :
    (_create_renamed_filename disk counter fileName ts).1 ∉ disk ∧
    ∃ c, counter ts ≤ c ∧
      (_create_renamed_filename disk counter fileName ts).1 =
        mkName (strftimeTarget ts) c (pySuffix fileName) ∧
      ∀ b, counter ts ≤ b → b < c →
        mkName (strftimeTarget ts) b (pySuffix fileName) ∈ disk := by
  refine ⟨create_renamed_not_mem disk counter fileName ts,
    findFreeCountAux disk (strftimeTarget ts) (pySuffix fileName)
      (disk.length + 1) (counter ts),
    findFreeCountAux_ge disk _ _ _ _, rfl, ?_⟩
  intro b hb1 hb2
  exact findFreeCountAux_min disk _ _ _ _ b hb1 hb2

/-- Witness for C6: with `2022-01-01_00-00-00_0.heic` already on disk the
planner proposes `_1` and the proposal does not collide with the disk. -/
theorem claim_c6_witness :
    (_create_renamed_filename ["2022-01-01_00-00-00_0.heic", "x.heic"] (fun _ => 0)
      "x.heic" ⟨2022, 1, 1, 0, 0, 0, 0⟩).1 = "2022-01-01_00-00-00_1.heic" ∧
    (_create_renamed_filename ["2022-01-01_00-00-00_0.heic", "x.heic"] (fun _ => 0)
      "x.heic" ⟨2022, 1, 1, 0, 0, 0, 0⟩).1 ∉ ["2022-01-01_00-00-00_0.heic", "x.heic"] :=
  ⟨by decide,
   (claim_c6_no_disk_collision ["2022-01-01_00-00-00_0.heic", "x.heic"] (fun _ => 0)
     "x.heic" ⟨2022, 1, 1, 0, 0, 0, 0⟩).1⟩

/-- Claim C7: the progress fractions emitted by `_update_results` are one
per completed job (`index / total` for `index = 1..total`) followed by the
final `1`; each lies in `[0, 1]`, the sequence is monotonically
non-decreasing, and the last emission is exactly `1`. -/
theorem claim_c7_progress (total : Nat) (htotal : 1 ≤ total) :
    (_update_results total).length = total + 1 ∧
    (∀ i, i < total →
      (_update_results total).get? i = some (((i + 1 : Nat) : ℚ) / (total : ℚ))) ∧
    (∀ x ∈ _update_results total, 0 ≤ x ∧ x ≤ 1) ∧
    List.Pairwise (· ≤ ·) (_update_results total) ∧
    (_update_results total).getLast? = some 1 :=
  ⟨update_results_length total, fun i h => update_results_get total i h,
   update_results_bounds total htotal, update_results_pairwise total htotal,
   update_results_last total⟩

/-- Witness for C7 at `total = 3`. -/
theorem claim_c7_witness :
    (_update_results 3).getLast? = some 1 ∧ (_update_results 3).length = 4 := by
  have h := claim_c7_progress 3 (by norm_num)
  exact ⟨h.2.2.2.2, h.1⟩

/-- Claim C3: per executed job, a destination existing at execution time
yields `Conflict` with the filesystem untouched; otherwise an OS-level
failure yields `Error` with the filesystem untouched; otherwise the rename
happens with status `Renamed`; and whatever the first job's outcome, the
batch continues with the remaining jobs, every submitted job receiving
exactly one outcome. -/
theorem claim_c3_executor (osFail : String → String → Bool) (dir : List DirFile)
    (job : RenameJob) (t : List RenameJob) :
    (job.proposed_name ∈ dir.map (·.name) →
      renameJobStep osFail dir job = (Status.conflict, dir)) ∧
    (job.proposed_name ∉ dir.map (·.name) →
      osFail job.original_name job.proposed_name = true →
      renameJobStep osFail dir job = (Status.error, dir)) ∧
    (job.proposed_name ∉ dir.map (·.name) →
      osFail job.original_name job.proposed_name = false →
      renameJobStep osFail dir job = (Status.renamed, applyRename dir job)) ∧
    _start_renaming osFail dir (job :: t) =
      ((_start_renaming osFail (renameJobStep osFail dir job).2 t).1,
        (job, (renameJobStep osFail dir job).1) ::
          (_start_renaming osFail (renameJobStep osFail dir job).2 t).2) ∧
    (_start_renaming osFail dir (job :: t)).2.length = t.length + 1 := by
  refine ⟨renameJobStep_conflict osFail dir job,
    renameJobStep_error osFail dir job,
    renameJobStep_renamed osFail dir job,
    start_renaming_cons osFail dir job t, ?_⟩
  rw [start_renaming_length]
  simp

/-- Witness for C3: a job whose destination already exists resolves to
`Conflict` and leaves the directory untouched. -/
theorem claim_c3_witness :
    renameJobStep (fun _ _ => true) [⟨"dst.jpg", true, none⟩, ⟨"a.jpg", true, none⟩]
      ⟨"a.jpg", "dst.jpg"⟩ =
      (Status.conflict, [⟨"dst.jpg", true, none⟩, ⟨"a.jpg", true, none⟩]) :=
  (claim_c3_executor (fun _ _ => true) [⟨"dst.jpg", true, none⟩, ⟨"a.jpg", true, none⟩]
    ⟨"a.jpg", "dst.jpg"⟩ []).1 (by decide)

/-- Claim C10: the planner never assigns status `NoChange`: every emitted
entry is `Ready` or `NoDateFound` (the proposed name always avoids every
name on disk, including the file's own current name, so it can never equal
the original). -/
theorem claim_c10_no_change_unreachable (dir : List DirFile) :
    ∀ e ∈ (_scan_directory dir).entries,
      e.status = Status.ready ∨ e.status = Status.no_date_found := by
  intro e he
  rw [scan_directory_eq] at he
  have hchar := scanFold_entries_char (dir.map (·.name))
      (dir.mergeSort (fun a b => a.name ≤ b.name)) (⟨fun _ => 0, [], []⟩ : ScanState)
      (mergeSort_names_mem dir)
  rcases hchar e he with h0 | ⟨f, _, _, _, hcase⟩
  · simp at h0
  · rcases hcase with ⟨_, heq⟩ | ⟨ts, c, _, heq, _⟩
    · rw [heq]
      exact Or.inr rfl
    · rw [heq]
      exact Or.inl rfl

/-- Witness for C10 on a concrete one-file directory. -/
theorem claim_c10_witness :
    (⟨"img1.heic", "2022-01-01_00-00-00_0.heic", Status.ready⟩ : FileEntry).status =
        Status.ready ∨
    (⟨"img1.heic", "2022-01-01_00-00-00_0.heic", Status.ready⟩ : FileEntry).status =
        Status.no_date_found :=
  claim_c10_no_change_unreachable [⟨"img1.heic", true, some ⟨2022, 1, 1, 0, 0, 0, 0⟩⟩] _
    (by
      rw [scan_directory_eq, mergeSort_eq_of_sorted _ (pairwise_name_lt_of_data _ (by decide))]
      decide)

/-- Claim C4: when a capture-date tag is present but its textual value does
not parse with the fixed format, the extraction failure never crashes the
scan: the extractor returns `none`, the file receives status `NoDateFound`
with an empty proposed name, and the scan still emits one row for every
processable file of the directory. -/
theorem claim_c4_malformed_timestamp (tags : List (String × String)) (v nm : String)
    (dir : List DirFile)
    (hsel : firstPresentTag tags EXIF_DATE_TAGS = some v)
    (hbad : strptimeColonFormat v = none)
    (hmem : (⟨nm, true, extract_date_from_image tags⟩ : DirFile) ∈ dir)
    (hren : renamedMatch nm = false)
    (hext : pyLower (pySuffix nm) ∈ IMAGE_FILE_EXTENSIONS ∨
      pyLower (pySuffix nm) ∈ VIDEO_FILE_EXTENSIONS) :
    extract_date_from_image tags = none ∧
    (⟨nm, "", Status.no_date_found⟩ : FileEntry) ∈ (_scan_directory dir).entries ∧
    (_scan_directory dir).entries.length =
      ((dir.mergeSort (fun a b => a.name ≤ b.name)).filter processable).length := by
  have hnone : extract_date_from_image tags = none := by
    unfold extract_date_from_image
    rw [hsel]
    exact hbad
  refine ⟨hnone, ?_, ?_⟩
  · rw [hnone] at hmem
    rw [scan_directory_eq]
    have hproc : processable ⟨nm, true, none⟩ = true := by
      rcases hext with h | h <;> simp [processable, hren, h]
    have hndf := scanFold_ndf_mem (dir.map (·.name))
      (dir.mergeSort (fun a b => a.name ≤ b.name)) (⟨fun _ => 0, [], []⟩ : ScanState)
    exact hndf ⟨nm, true, none⟩
      ((List.mergeSort_perm dir (fun a b => a.name ≤ b.name)).mem_iff.2 hmem) hproc rfl
  · have hlen := congrArg List.length (scan_directory_originals dir)
    rw [List.length_map, List.length_map] at hlen
    exact hlen

/-- Witness for C4: a tag value with `-`/`T` separators fails the fixed
format, the extractor returns `none`, and the scan reports `NoDateFound`. -/
theorem claim_c4_witness :
    extract_date_from_image [("EXIF DateTimeOriginal", "2023-05-10T14:22:01")] = none ∧
    (⟨"photo.jpg", "", Status.no_date_found⟩ : FileEntry) ∈
      (_scan_directory [⟨"photo.jpg", true,
        extract_date_from_image [("EXIF DateTimeOriginal", "2023-05-10T14:22:01")]⟩]).entries := by
  have h := claim_c4_malformed_timestamp [("EXIF DateTimeOriginal", "2023-05-10T14:22:01")]
    "2023-05-10T14:22:01" "photo.jpg"
    [⟨"photo.jpg", true,
      extract_date_from_image [("EXIF DateTimeOriginal", "2023-05-10T14:22:01")]⟩]
    (by decide) (by decide) (List.mem_singleton.2 rfl) (by decide) (by decide)
  exact ⟨h.1, h.2.1⟩

/-- Claim C8: the plan is emitted in lexicographic order of original
filename — the original names of the emitted entries are sorted — and the
scan result is a deterministic function of the directory state: any
permutation of the listing produces the identical scan result. -/
theorem claim_c8_lexicographic_order (dir dir' : List DirFile) (hperm : dir'.Perm dir)
    (hnd : (dir.map (·.name)).Nodup) :
    List.Pairwise (· ≤ ·) ((_scan_directory dir).entries.map (·.original_name)) ∧
    _scan_directory dir' = _scan_directory dir := by
  constructor
  · rw [scan_directory_originals, List.pairwise_map]
    exact (pairwise_le_mergeSort dir).filter processable
  · exact scan_directory_congr dir' dir hperm hnd

/-- Witness for C8: scanning a two-file directory listed in either order
gives the identical result. -/
theorem claim_c8_witness :
    _scan_directory [⟨"b.jpg", true, none⟩, ⟨"a.jpg", true, none⟩] =
      _scan_directory [⟨"a.jpg", true, none⟩, ⟨"b.jpg", true, none⟩] :=
  (claim_c8_lexicographic_order [⟨"a.jpg", true, none⟩, ⟨"b.jpg", true, none⟩]
    [⟨"b.jpg", true, none⟩, ⟨"a.jpg", true, none⟩] (by decide) (by decide)).2

/-- Claim C9: a directory entry appears in the plan exactly when it is a
regular file, not already canonically named, and its lowercased extension
is on one of the two fixed allow-lists; every file with any other
extension is skipped entirely and never appears in the plan. -/
theorem claim_c9_classification (dir : List DirFile) (f : DirFile) (hf : f ∈ dir)
    (hnd : (dir.map (·.name)).Nodup) :
    (∃ e ∈ (_scan_directory dir).entries, e.original_name = f.name) ↔
      (f.isFile = true ∧ renamedMatch f.name = false ∧
        (pyLower (pySuffix f.name) ∈ IMAGE_FILE_EXTENSIONS ∨
         pyLower (pySuffix f.name) ∈ VIDEO_FILE_EXTENSIONS)) := by
  have hiff : processable f = true ↔
      (f.isFile = true ∧ renamedMatch f.name = false ∧
        (pyLower (pySuffix f.name) ∈ IMAGE_FILE_EXTENSIONS ∨
         pyLower (pySuffix f.name) ∈ VIDEO_FILE_EXTENSIONS)) := by
    constructor
    · exact processable_parts f
    · rintro ⟨h1, h2, h3⟩
      rcases h3 with h | h <;> simp [processable, h1, h2, h]
  rw [← hiff]
  constructor
  · rintro ⟨e, he, horig⟩
    have hmap : e.original_name ∈ (_scan_directory dir).entries.map (·.original_name) :=
      List.mem_map_of_mem _ he
    rw [scan_directory_originals, List.mem_map] at hmap
    obtain ⟨g, hgfil, hgname⟩ := hmap
    have hgproc : processable g = true := List.of_mem_filter hgfil
    have hgdir : g ∈ dir :=
      (List.mergeSort_perm dir (fun a b => a.name ≤ b.name)).mem_iff.1
        (List.mem_of_mem_filter hgfil)
    have hgf : g = f :=
      List.inj_on_of_nodup_map hnd hgdir hf (by rw [hgname, horig])
    rw [← hgf]
    exact hgproc
  · intro hproc
    have hf' : f ∈ dir.mergeSort (fun a b => a.name ≤ b.name) :=
      (List.mergeSort_perm dir (fun a b => a.name ≤ b.name)).mem_iff.2 hf
    have hname : f.name ∈ (_scan_directory dir).entries.map (·.original_name) := by
      rw [scan_directory_originals]
      exact List.mem_map_of_mem _ (List.mem_filter.2 ⟨hf', hproc⟩)
    rw [List.mem_map] at hname
    obtain ⟨e, he, heq⟩ := hname
    exact ⟨e, he, heq⟩

/-- Witness for C9: `photo.jpg` appears in the plan, `note.txt` never
does. -/
theorem claim_c9_witness :
    (∃ e ∈ (_scan_directory [⟨"note.txt", true, none⟩, ⟨"photo.jpg", true, none⟩]).entries,
      e.original_name = "photo.jpg") ∧
    ¬(∃ e ∈ (_scan_directory [⟨"note.txt", true, none⟩, ⟨"photo.jpg", true, none⟩]).entries,
      e.original_name = "note.txt") := by
  constructor
  · exact (claim_c9_classification [⟨"note.txt", true, none⟩, ⟨"photo.jpg", true, none⟩]
      ⟨"photo.jpg", true, none⟩ (by decide) (by decide)).2 (by decide)
  · intro hex
    have := (claim_c9_classification [⟨"note.txt", true, none⟩, ⟨"photo.jpg", true, none⟩]
      ⟨"note.txt", true, none⟩ (by decide) (by decide)).1 hex
    revert this
    decide

/-- Claim C1 (counterexample): two scanned files whose derived capture
timestamps differ only in the sub-second field format to the same
`YYYY-MM-DD_HH-MM-SS` value, yet both receive suffix `0`: the suffix
counter is keyed on the `datetime` value, not on its formatted string, so
the assigned suffixes are not `{0, 1}` and are not pairwise distinct. -/
theorem claim_c1_counterexample :
    strftimeTarget ⟨2023, 1, 1, 0, 0, 0, 0⟩ = strftimeTarget ⟨2023, 1, 1, 0, 0, 0, 500000⟩ ∧
    (⟨2023, 1, 1, 0, 0, 0, 0⟩ : DateTime) ≠ ⟨2023, 1, 1, 0, 0, 0, 500000⟩ ∧
    (DateTime.valid ⟨2023, 1, 1, 0, 0, 0, 0⟩ = true ∧
      DateTime.valid ⟨2023, 1, 1, 0, 0, 0, 500000⟩ = true) ∧
    (∀ n ∈ ["a.mp4", "b.wmv"], renamedMatch n = false) ∧
    (_scan_directory
        [⟨"a.mp4", true, some ⟨2023, 1, 1, 0, 0, 0, 0⟩⟩,
         ⟨"b.wmv", true, some ⟨2023, 1, 1, 0, 0, 0, 500000⟩⟩]).entries =
      [⟨"a.mp4", "2023-01-01_00-00-00_0.mp4", Status.ready⟩,
       ⟨"b.wmv", "2023-01-01_00-00-00_0.wmv", Status.ready⟩] := by
  refine ⟨by decide, by decide, ⟨by decide, by decide⟩, by decide, ?_⟩
  rw [scan_directory_eq, mergeSort_eq_of_sorted _ (pairwise_name_lt_of_data _ (by decide))]
  decide

/-- Claim C1 (amended): for every set of `k` files scanned in one pass
whose derived capture timestamps are **equal as `datetime` values** (the
counter is keyed on the value, not on the formatted string) and whose year
is at least 1000 (so `%Y` renders as exactly four digits — on Linux CPython
leaves smaller years unpadded, the proposals are then not canonical, and a
pre-existing file of that non-canonical shape can shift the suffixes), the
planner assigns suffixes that are exactly `{0, ..., k-1}` in scan order,
assuming no canonically-named files pre-exist on disk: the `j`-th such
file's proposed name carries suffix `j`. -/
theorem claim_c1_suffixes (dir : List DirFile) (ts : DateTime)
    (hts : ts.valid = true) (hyear : 1000 ≤ ts.year)
    (hdisk : ∀ n ∈ dir.map (·.name), renamedMatch n = false)
    (j : Nat) (g : DirFile)
    (hget : ((dir.mergeSort (fun a b => a.name ≤ b.name)).filter
        (fun f => processable f && f.meta == some ts)).get? j = some g) :
    (⟨g.name, mkName (strftimeTarget ts) j (pySuffix g.name), Status.ready⟩ : FileEntry)
      ∈ (_scan_directory dir).entries := by
  rw [scan_directory_eq]
  have h := scanFold_counter_ts (dir.map (·.name)) ts hts hyear hdisk
      (dir.mergeSort (fun a b => a.name ≤ b.name)) (⟨fun _ => 0, [], []⟩ : ScanState)
      (mergeSort_names_mem dir)
  have h2 := h j g hget
  simpa using h2

/-- Witness for C1: two `.heic` files with the identical timestamp receive
suffixes `0` and `1`. -/
theorem claim_c1_witness :
    (⟨"img2.heic",
      mkName (strftimeTarget ⟨2022, 1, 1, 0, 0, 0, 0⟩) 1 (pySuffix "img2.heic"),
      Status.ready⟩ : FileEntry) ∈
      (_scan_directory
        [⟨"img1.heic", true, some ⟨2022, 1, 1, 0, 0, 0, 0⟩⟩,
         ⟨"img2.heic", true, some ⟨2022, 1, 1, 0, 0, 0, 0⟩⟩]).entries :=
  claim_c1_suffixes
    [⟨"img1.heic", true, some ⟨2022, 1, 1, 0, 0, 0, 0⟩⟩,
     ⟨"img2.heic", true, some ⟨2022, 1, 1, 0, 0, 0, 0⟩⟩]
    ⟨2022, 1, 1, 0, 0, 0, 0⟩ (by decide) (by decide) (by decide) 1
    ⟨"img2.heic", true, some ⟨2022, 1, 1, 0, 0, 0, 0⟩⟩
    (by
      rw [mergeSort_eq_of_sorted _ (pairwise_name_lt_of_data _ (by decide))]
      decide)

/-- Claim C2 (counterexample): after executing all Ready renames of a scan
in which two distinct derived timestamps share a formatted value, one job
resolves `Renamed` and the other `Conflict` (its destination was just
created), the conflicting file keeps its original name, and re-scanning
the resulting directory state still yields one Ready entry — the claim's
universally quantified idempotence fails on the code. -/
theorem claim_c2_counterexample :
    ((_start_renaming (fun _ _ => false)
        [⟨"a.mp4", true, some ⟨2023, 1, 1, 0, 0, 0, 0⟩⟩,
         ⟨"b.mp4", true, some ⟨2023, 1, 1, 0, 0, 0, 500000⟩⟩]
        (_scan_directory
          [⟨"a.mp4", true, some ⟨2023, 1, 1, 0, 0, 0, 0⟩⟩,
           ⟨"b.mp4", true, some ⟨2023, 1, 1, 0, 0, 0, 500000⟩⟩]).pendingRenames).2.map
      (fun p => p.2) = [Status.renamed, Status.conflict]) ∧
    ((_scan_directory
        (_start_renaming (fun _ _ => false)
          [⟨"a.mp4", true, some ⟨2023, 1, 1, 0, 0, 0, 0⟩⟩,
           ⟨"b.mp4", true, some ⟨2023, 1, 1, 0, 0, 0, 500000⟩⟩]
          (_scan_directory
            [⟨"a.mp4", true, some ⟨2023, 1, 1, 0, 0, 0, 0⟩⟩,
             ⟨"b.mp4", true, some ⟨2023, 1, 1, 0, 0, 0, 500000⟩⟩]).pendingRenames).1).entries.filter
      (fun e => e.status == Status.ready)).length = 1 := by
  have hpend : (_scan_directory
      [⟨"a.mp4", true, some ⟨2023, 1, 1, 0, 0, 0, 0⟩⟩,
       ⟨"b.mp4", true, some ⟨2023, 1, 1, 0, 0, 0, 500000⟩⟩]).pendingRenames =
      [⟨"a.mp4", "2023-01-01_00-00-00_0.mp4"⟩,
       ⟨"b.mp4", "2023-01-01_00-00-00_0.mp4"⟩] := by
    rw [scan_directory_eq, mergeSort_eq_of_sorted _ (pairwise_name_lt_of_data _ (by decide))]
    decide
  rw [hpend]
  have hexec : (_start_renaming (fun _ _ => false)
      [⟨"a.mp4", true, some ⟨2023, 1, 1, 0, 0, 0, 0⟩⟩,
       ⟨"b.mp4", true, some ⟨2023, 1, 1, 0, 0, 0, 500000⟩⟩]
      [⟨"a.mp4", "2023-01-01_00-00-00_0.mp4"⟩,
       ⟨"b.mp4", "2023-01-01_00-00-00_0.mp4"⟩]) =
      ([⟨"2023-01-01_00-00-00_0.mp4", true, some ⟨2023, 1, 1, 0, 0, 0, 0⟩⟩,
        ⟨"b.mp4", true, some ⟨2023, 1, 1, 0, 0, 0, 500000⟩⟩],
       [(⟨"a.mp4", "2023-01-01_00-00-00_0.mp4"⟩, Status.renamed),
        (⟨"b.mp4", "2023-01-01_00-00-00_0.mp4"⟩, Status.conflict)]) := by
    decide
  rw [hexec]
  refine ⟨by decide, ?_⟩
  rw [scan_directory_eq, mergeSort_eq_of_sorted _ (pairwise_name_lt_of_data _ (by decide))]
  decide

/-- Claim C2 (amended): for a directory whose datable files all carry
timestamps with year at least 1000 (four-digit `%Y`; on Linux CPython
renders smaller years unpadded, producing non-canonical names that escape
the skip rule and are re-proposed on every scan), every proposed name the
planner emits matches the canonical pattern, every emitted entry's
original name does not match it (such files are skipped before
extraction), and — provided every Ready rename of the batch actually
succeeds (status `Renamed`, which rules out the conflicting case of two
distinct timestamps sharing a formatted value) — re-scanning the directory
state produced by the execution yields zero Ready entries. -/
theorem claim_c2_idempotence (dir : List DirFile) (osFail : String → String → Bool)
    (hvalid : ∀ f ∈ dir, ∀ ts, f.meta = some ts → ts.valid = true ∧ 1000 ≤ ts.year)
    (hall : ∀ p ∈ (_start_renaming osFail dir (_scan_directory dir).pendingRenames).2,
      p.2 = Status.renamed) :
    (∀ job ∈ (_scan_directory dir).pendingRenames,
      renamedMatch job.proposed_name = true) ∧
    (∀ e ∈ (_scan_directory dir).entries, renamedMatch e.original_name = false) ∧
    (∀ e ∈ (_scan_directory
        (_start_renaming osFail dir (_scan_directory dir).pendingRenames).1).entries,
      e.status ≠ Status.ready) := by
  have hjchar := scanFold_jobs_char (dir.map (·.name))
      (dir.mergeSort (fun a b => a.name ≤ b.name)) (⟨fun _ => 0, [], []⟩ : ScanState)
      (mergeSort_names_mem dir)
  have hjobs : ∀ job ∈ (_scan_directory dir).pendingRenames,
      renamedMatch job.proposed_name = true ∧
      renamedMatch job.original_name = false := by
    intro job hj
    rw [scan_directory_eq] at hj
    rcases hjchar job hj with h0 | ⟨f, hfmem, ts, c, hproc, hmeta, horig, hprop, _⟩
    · simp at h0
    · have hfdir : f ∈ dir :=
        (List.mergeSort_perm dir (fun a b => a.name ≤ b.name)).mem_iff.1 hfmem
      have hv := hvalid f hfdir ts hmeta
      constructor
      · rw [hprop]
        exact renamedMatch_mkName ts hv.1 hv.2 c _
          (extOk_of_mem_image _ (processable_parts f hproc).2.2)
      · rw [horig]
        exact (processable_parts f hproc).2.1
  have hechar := scanFold_entries_char (dir.map (·.name))
      (dir.mergeSort (fun a b => a.name ≤ b.name)) (⟨fun _ => 0, [], []⟩ : ScanState)
      (mergeSort_names_mem dir)
  refine ⟨fun job hj => (hjobs job hj).1, ?_, ?_⟩
  · intro e he
    rw [scan_directory_eq] at he
    rcases hechar e he with h0 | ⟨f, _, hproc, horig, _⟩
    · simp at h0
    · rw [horig]
      exact (processable_parts f hproc).2.1
  · have hfinal : (_start_renaming osFail dir (_scan_directory dir).pendingRenames).1 =
        ((_scan_directory dir).pendingRenames).foldl applyRename dir :=
      exec_all_renamed osFail _ dir hall
    rw [hfinal]
    apply rescan_no_ready
    apply applyRenames_invariant _ dir hjobs
    intro g hg
    by_cases hren : renamedMatch g.name = true
    · exact Or.inl hren
    · by_cases hproc : processable g = true
      · cases hm : g.meta with
        | none => exact Or.inr (Or.inr (Or.inl rfl))
        | some ts =>
          have hje := scanFold_job_exists (dir.map (·.name))
            (dir.mergeSort (fun a b => a.name ≤ b.name))
            (⟨fun _ => 0, [], []⟩ : ScanState)
          obtain ⟨job, hjmem, hjorig⟩ := hje g ts
            ((List.mergeSort_perm dir (fun a b => a.name ≤ b.name)).mem_iff.2 hg)
            hproc hm (List.mem_map_of_mem _ hg)
          refine Or.inr (Or.inr (Or.inr ⟨job, ?_, hjorig⟩))
          rw [scan_directory_eq]
          exact hjmem
      · exact Or.inr (Or.inl (by simpa using hproc))

/-- Witness for C2: a directory with one datable image and one undatable
one; the single Ready rename succeeds and the re-scan of the resulting
state reports the remaining file as `NoDateFound`, never `Ready`. -/
theorem claim_c2_witness :
    (⟨"note.png", "", Status.no_date_found⟩ : FileEntry).status ≠ Status.ready := by
  have hpend : (_scan_directory
      [⟨"img1.heic", true, some ⟨2022, 1, 1, 0, 0, 0, 0⟩⟩,
       ⟨"note.png", true, none⟩]).pendingRenames =
      [⟨"img1.heic", "2022-01-01_00-00-00_0.heic"⟩] := by
    rw [scan_directory_eq, mergeSort_eq_of_sorted _ (pairwise_name_lt_of_data _ (by decide))]
    decide
  have h := claim_c2_idempotence
    [⟨"img1.heic", true, some ⟨2022, 1, 1, 0, 0, 0, 0⟩⟩, ⟨"note.png", true, none⟩]
    (fun _ _ => false)
    (by
      intro f hf ts hts
      rcases List.mem_cons.1 hf with rfl | hf2
      · rw [Option.some_inj] at hts
        rw [← hts]
        exact ⟨by decide, by decide⟩
      · rcases List.mem_cons.1 hf2 with rfl | hf3
        · exact absurd hts (by simp)
        · exact absurd hf3 (List.not_mem_nil f))
    (by
      rw [hpend]
      decide)
  apply h.2.2
  rw [hpend]
  rw [show (_start_renaming (fun _ _ => false)
      [⟨"img1.heic", true, some ⟨2022, 1, 1, 0, 0, 0, 0⟩⟩, ⟨"note.png", true, none⟩]
      [⟨"img1.heic", "2022-01-01_00-00-00_0.heic"⟩]).1 =
      [⟨"2022-01-01_00-00-00_0.heic", true, some ⟨2022, 1, 1, 0, 0, 0, 0⟩⟩,
       ⟨"note.png", true, none⟩] from by decide]
  rw [scan_directory_eq, mergeSort_eq_of_sorted _ (pairwise_name_lt_of_data _ (by decide))]
  decide


end MetadataRenamer
